import Mathlib

/-!
# Multiple-choice cheater simulator (`simulator.go`)

A shallow embedding of the simulator and the verification of its specification.

* A Go array `[n]T` is a function `Fin n → T`; an index expression that Go would
  reject at run time (index out of range) makes the embedded operation return `none`.
* Go `int` is the 64-bit two's complement integer of the usual targets: the entries of
  a `Distribution` are integers and every addition or subtraction on them that can
  leave the range goes through `wrapInt`.  Counters that the code keeps between `0`
  and `ExamLength` (`grade`, `i`, the counts of `Exam.Distribution`) are natural
  numbers or plain integers: they cannot overflow.
* `rand.Perm(ExamLength)` is a parameter of `RandomExam`: a permutation of the
  positions `0 .. ExamLength-1`, `perm i` being the slice element `perm[i]`.
  `AssessStrategy` takes the whole random source, the sequence of the permutations that
  the successive calls of `rand.Perm` return.
* `float64` arithmetic is followed where it is exact: the scaling of `EliminateAndScale`
  (`scaleEntry`) and the two quotients of `AssessStrategy` (`floatDiv`) say in their
  comments for which operands, and give `none`, respectively `notFollowed`, outside.
-/

namespace Simulator

/-! ## Constants and types -/

/-- Number of questions of an exam. -/
abbrev ExamLength : Nat := 100

/-- Number of options of a question. -/
abbrev OptionsPerQuestion : Nat := 4

/-- Lowest passing grade. -/
abbrev PassGrade : Nat := 55

/-- An answer to a question, `type Answer int`. -/
abbrev Answer := Int

/-- The responses to an exam, `type Exam [ExamLength]Answer`. -/
abbrev Exam := Fin ExamLength → Answer

/-- The grade of an exam, `type Grade int`; a counter between `0` and `ExamLength`. -/
abbrev Grade := Nat

/-- The distribution of answers, `type Distribution [OptionsPerQuestion]int`. -/
abbrev Distribution := Fin OptionsPerQuestion → Int

/-! ## Go integers -/

/-- The value of a Go `int` after an operation whose exact result is `x`
(64-bit two's complement wrap-around). -/
def wrapInt (x : Int) : Int :=
  (x + 9223372036854775808) % 18446744073709551616 - 9223372036854775808

/-- Go `x + y` on `int`. -/
def goAdd (x y : Int) : Int := wrapInt (x + y)

/-- Go `x - y` on `int`. -/
def goSub (x y : Int) : Int := wrapInt (x - y)

/-- The values a Go `int` can hold. -/
def IsGoInt (x : Int) : Prop := -9223372036854775808 ≤ x ∧ x < 9223372036854775808

instance (x : Int) : Decidable (IsGoInt x) := by
  unfold IsGoInt; infer_instance

/-! ## Exam -/

/-- `func (e *Exam) Check(answers *Exam) Grade`: the loop `for i := range e` with
`grade++` where `e[i] == answers[i]`. -/
def Exam.Check (e answers : Exam) : Grade :=
  (List.finRange ExamLength).foldl
    (fun grade i => if e i = answers i then grade + 1 else grade) 0

/-- The statement `d[a]++` of `Exam.Distribution`, for an answer `a` read from the exam:
`none` when `a` is not an index of the array `d`. -/
def Distribution.incr (d : Distribution) (a : Answer) : Option Distribution :=
  if 0 ≤ a then
    if h : a.toNat < OptionsPerQuestion then
      some (Function.update d ⟨a.toNat, h⟩ (d ⟨a.toNat, h⟩ + 1))
    else none
  else none

/-- `func (e *Exam) Distribution() Distribution`: `for _, a := range e { d[a]++ }`
from the zero distribution. -/
def Exam.Distribution (e : Exam) : Option Distribution :=
  (List.ofFn e).foldlM Distribution.incr (fun _ => 0)

/-! ## Distribution -/

/-- The loop of `Valid` over the remaining entries, `sum` being the running sum:
`return false` at the first negative entry, `sum == ExamLength` after the last. -/
def Distribution.validLoop : List Int → Int → Bool
  | [], sum => sum == (ExamLength : Int)
  | v :: vs, sum => if v < 0 then false else Distribution.validLoop vs (goAdd sum v)

/-- `func (d Distribution) Valid() bool`. -/
def Distribution.Valid (d : Distribution) : Bool :=
  Distribution.validLoop (List.ofFn d) 0

/-- `func (d Distribution) Sum() int`. -/
def Distribution.Sum (d : Distribution) : Int :=
  (List.ofFn d).foldl goAdd 0

/-- A valid distribution in the sense of the specification: every entry is
non-negative and the entries sum to `ExamLength`. -/
def Distribution.IsValid (d : Distribution) : Prop :=
  (∀ k, 0 ≤ d k) ∧ d 0 + d 1 + d 2 + d 3 = (ExamLength : Int)

instance (d : Distribution) : Decidable (Distribution.IsValid d) := by
  unfold Distribution.IsValid; infer_instance

/-- Go `d[a]` for an answer `a`: `none` when `a` is not an index of `d`. -/
def Distribution.get (d : Distribution) (a : Answer) : Option Int :=
  if 0 ≤ a then
    if h : a.toNat < OptionsPerQuestion then some (d ⟨a.toNat, h⟩) else none
  else none

/-- Go `d[a] = v` for an answer `a`: `none` when `a` is not an index of `d`. -/
def Distribution.set (d : Distribution) (a : Answer) (v : Int) : Option Distribution :=
  if 0 ≤ a then
    if h : a.toNat < OptionsPerQuestion then some (Function.update d ⟨a.toNat, h⟩ v) else none
  else none

/-! ## Rank -/

/-- An element of the slice `positions` of `Rank`. -/
structure Position where
  /-- The answer option. -/
  position : Answer
  /-- Its count in the distribution. -/
  frequency : Int
deriving DecidableEq, Repr

/-- The closure passed to `sort.Slice` in `Rank`:
`positions[i].frequency > positions[j].frequency`. -/
def Rank.less (positions : List Position) (i j : Nat) : Bool :=
  match positions[i]?, positions[j]? with
  | some x, some y => decide (x.frequency > y.frequency)
  | _, _ => false

/-- The swap function `sort.Slice` obtains from `reflect.Swapper`: exchanges the
elements `i` and `j` of the slice. -/
def swapAt (positions : List Position) (i j : Nat) : List Position :=
  match positions[i]?, positions[j]? with
  | some x, some y => (positions.set i y).set j x
  | _, _ => positions

/-- The inner loop of Go's `insertionSortLessFunc`,
`for j := i; j > a && less(j, j-1); j-- { data.Swap(j, j-1) }` with `a = 0`. -/
def insertionInner : Nat → List Position → List Position
  | 0, positions => positions
  | j + 1, positions =>
    if Rank.less positions (j + 1) j then insertionInner j (swapAt positions (j + 1) j)
    else positions

/-- The behaviour of `sort.Slice(positions, less)` of the Go standard library on a slice
of at most 12 elements: both the quicksort of the older releases and the
pattern-defeating quicksort of the newer ones hand such a slice to
`insertionSortLessFunc(data, 0, n)`, the loop
`for i := a + 1; i < b; i++ { inner loop }`. -/
def sortSlice (positions : List Position) : List Position :=
  (List.range' 1 (positions.length - 1)).foldl (fun ps i => insertionInner i ps) positions

/-- `func Rank(d Distribution) [OptionsPerQuestion]Answer`. -/
def Rank (d : Distribution) : Fin OptionsPerQuestion → Answer :=
  let positions : List Position :=
    List.ofFn (fun i : Fin OptionsPerQuestion => Position.mk (i.val : Int) (d i))
  let sorted := sortSlice positions
  fun i => (sorted.getD i.val (Position.mk 0 0)).position

/-- The order the specification asks of `Rank`: `r` lists the options `σ 0, σ 1, ...`,
each once, by descending count in `d`, options of equal count by ascending index. -/
def LexSorted (d : Distribution) (r : Fin OptionsPerQuestion → Answer) : Prop :=
  ∃ σ : Fin OptionsPerQuestion → Fin OptionsPerQuestion,
    (∀ i, r i = ((σ i).val : Int)) ∧ Function.Injective σ ∧
      ∀ i j, i < j → d (σ j) < d (σ i) ∨ (d (σ j) = d (σ i) ∧ σ i < σ j)

/-! ## RandomExam -/

/-- The variables of the fill loop of `RandomExam`: the loop variable `a`, the write
position `i`, the budget `d` (the function's own copy of its argument) and `tmp`. -/
structure FillState where
  /-- The answer being emitted; only ever incremented from `0` and tested against
  `OptionsPerQuestion`. -/
  a : Nat
  /-- The next position of `tmp` to write. -/
  i : Nat
  /-- The remaining budget. -/
  d : Distribution
  /-- The sequence built so far. -/
  tmp : Exam

/-- What one turn of the fill loop leads to. -/
inductive FillResult where
  /-- The body ran and the loop goes on from this state. -/
  | running (s : FillState)
  /-- The condition `a < OptionsPerQuestion` failed: the loop is left in this state. -/
  | finished (s : FillState)
  /-- The write `tmp[i] = a` had `i = ExamLength`: run-time panic, index out of range. -/
  | indexOutOfRange

/-- One turn of `for a := Answer(0); a < OptionsPerQuestion; { ... }`: the test of the
condition and, when it holds, the body. -/
def fillStep (s : FillState) : FillResult :=
  if h : s.a < OptionsPerQuestion then
    if s.d ⟨s.a, h⟩ = 0 then
      FillResult.running { s with a := s.a + 1 }
    else if hi : s.i < ExamLength then
      FillResult.running
        { a := s.a
          i := s.i + 1
          d := Function.update s.d ⟨s.a, h⟩ (goSub (s.d ⟨s.a, h⟩) 1)
          tmp := Function.update s.tmp ⟨s.i, hi⟩ (s.a : Int) }
    else FillResult.indexOutOfRange
  else FillResult.finished s

/-- At most `n` turns of the fill loop from `s`; the result is `running` when the loop
has not stopped by then. -/
def fillLoop : Nat → FillState → FillResult
  | 0, s => FillResult.running s
  | n + 1, s =>
    match fillStep s with
    | FillResult.running s1 => fillLoop n s1
    | r => r

/-- The state in which `RandomExam(d)` enters its fill loop: `var tmp, dest Exam`,
`var i = 0`, `a := Answer(0)`. -/
def fillInit (d : Distribution) : FillState :=
  { a := 0, i := 0, d := d, tmp := fun _ => 0 }

/-- The intermediate sequence as the specification describes it (sorted by answer value,
with the counts of `d`): position `p` holds the least option `k` with
`d[0] + ... + d[k] > p`. -/
def sortedAnswers (d : Distribution) (p : Fin ExamLength) : Fin OptionsPerQuestion :=
  if (p.val : Int) < d 0 then 0
  else if (p.val : Int) < d 0 + d 1 then 1
  else if (p.val : Int) < d 0 + d 1 + d 2 then 2
  else 3

/-- The number of turns `RandomExam` allows its fill loop in this embedding.  Every turn
that does not stop the loop increments `a` or `i`, `a` stops it at `OptionsPerQuestion`
and `i` at `ExamLength`, so the loop has always stopped by then (`fillLoop_stops`). -/
abbrev fillFuel : Nat := ExamLength + OptionsPerQuestion + 1

/-- The second loop of `RandomExam`, `for i, v := range perm { dest[v] = tmp[i] }`. -/
def scatter (perm : Equiv.Perm (Fin ExamLength)) (tmp : Exam) : Exam :=
  (List.finRange ExamLength).foldl
    (fun dest i => Function.update dest (perm i) (tmp i)) (fun _ => 0)

/-- `func RandomExam(d Distribution) Exam`, with the result `perm` of
`rand.Perm(ExamLength)` as a parameter; `none` is the run-time panic of the fill loop. -/
def RandomExam (perm : Equiv.Perm (Fin ExamLength)) (d : Distribution) : Option Exam :=
  match fillLoop fillFuel (fillInit d) with
  | FillResult.finished s => some (scatter perm s.tmp)
  | _ => none

/-! ## Strategies -/

/-- Go `e[i] = v` for an index `i` of type `Answer`: `none` when `i` is not an index
of `e`. -/
def Exam.set (e : Exam) (i : Answer) (v : Answer) : Option Exam :=
  if 0 ≤ i then
    if h : i.toNat < ExamLength then some (Function.update e ⟨i.toNat, h⟩ v) else none
  else none

/-- `func GuessCommon(d Distribution) Exam`.  The loop is `for _, i := range e`, so `i`
runs over the VALUES of the (zero) array `e` as it was when the loop began, and the
body `e[i] = common` writes at the index given by that value. -/
def GuessCommon (d : Distribution) : Option Exam :=
  let e : Exam := fun _ => 0
  let common := Rank d 0
  (List.ofFn e).foldlM (fun acc i => Exam.set acc i common) e

/-- The expression `int(float64(x) * float64(ExamLength) / float64(sum))` of
`EliminateAndScale`.  When `sum ≠ 0` and `|x| * ExamLength + |sum| < 2 ^ 53` the two
conversions and the product are exact and the correctly rounded quotient lies on the
same side of every integer as the exact one (a quotient that is not an integer is at
least `1 / |sum|` away from the next one, more than the rounding error), so the
conversion to `int` yields the exact quotient truncated towards zero.  Outside that
range (where the result depends on the rounding, or on the platform for a zero `sum`)
the embedding gives `none`. -/
def scaleEntry (x sum : Int) : Option Int :=
  if sum ≠ 0 ∧ |x| * (ExamLength : Int) + |sum| < 9007199254740992 then
    some (Int.tdiv (x * (ExamLength : Int)) sum)
  else none

/-- `func EliminateAndScale(d Distribution) Exam`, with the permutation drawn by
`RandomExam` as a parameter; `none` is a run-time panic or a run that `scaleEntry`
does not follow. -/
def EliminateAndScale (perm : Equiv.Perm (Fin ExamLength)) (d : Distribution) :
    Option Exam := do
  let ranking := Rank d
  let d1 ← Distribution.set d (ranking ⟨OptionsPerQuestion - 1, by decide⟩) 0
  let sum := Distribution.Sum d1
  let d2 ← (List.finRange OptionsPerQuestion).foldlM
    (fun (acc : Distribution) i => (scaleEntry (acc i) sum).map (Function.update acc i)) d1
  let sum2 := Distribution.Sum d2
  let d3 : Distribution := Function.update d2 0 (goAdd (d2 0) (goSub (ExamLength : Int) sum2))
  RandomExam perm d3

/-- The distribution `EliminateAndScale` hands to `RandomExam`, as the specification
describes it (§4.5, steps 1 to 3), `L` being the least frequent option `Rank(d)[3]`: the
count of `L` is set to 0, every other count `d[k]` becomes `floor(d[k] * ExamLength / S)`
with `S` the sum left after the elimination, and the shortfall to `ExamLength` is added
to the count of option 0. -/
def scaledDistribution (d : Distribution) (L : Fin OptionsPerQuestion) : Distribution :=
  let S := d 0 + d 1 + d 2 + d 3 - d L
  let c : Distribution := fun k => if k = L then 0 else d k * (ExamLength : Int) / S
  Function.update c 0 (c 0 + ((ExamLength : Int) - (c 0 + c 1 + c 2 + c 3)))

/-! ## The turns of the fill loop -/

/-- The two kinds of turn of the fill loop that do not stop it. -/
inductive Turn where
  /-- The branch `a++`: the budget of option `a` is used up. -/
  | advance
  /-- The branch `tmp[i] = a; d[a]--; i++`. -/
  | emit
deriving DecidableEq

/-- The branch the body of the fill loop takes in state `s`; `none` when the loop stops
there (exit, or write out of range). -/
def turnOf (s : FillState) : Option Turn :=
  if h : s.a < OptionsPerQuestion then
    if s.d ⟨s.a, h⟩ = 0 then some Turn.advance
    else if s.i < ExamLength then some Turn.emit
    else none
  else none

/-- The turns the fill loop takes from `s`, at most `n` of them, in order. -/
def fillTurns : Nat → FillState → List Turn
  | 0, _ => []
  | n + 1, s =>
    match turnOf s, fillStep s with
    | some t, FillResult.running s1 => t :: fillTurns n s1
    | _, _ => []

/-- The sum `d[0] + ... + d[k]` of the specification of the intermediate sequence. -/
def prefixSum (d : Distribution) (k : Fin OptionsPerQuestion) : Int :=
  ∑ j : Fin OptionsPerQuestion, if j ≤ k then d j else 0

/-! ## AssessStrategy -/

/-- The global random source of `math/rand` as the simulator uses it: `rand k` is the
permutation the call number `k` of `rand.Perm(ExamLength)` returns. -/
abbrev RandSource := Nat → Equiv.Perm (Fin ExamLength)

/-- `type Strategy func(Distribution) Exam`.  A strategy may call `rand.Perm`: it is given
the random source and the number of calls made so far, and returns its exam with the
number of calls made after it; `none` when it does not return. -/
abbrev Strategy := RandSource → Nat → Distribution → Option (Exam × Nat)

/-- The strategy `RandomExam` of the table in `main`: one call of `rand.Perm`. -/
def RandomExamStrategy : Strategy :=
  fun rand k d => (RandomExam (rand k) d).map (fun e => (e, k + 1))

/-- The strategy `GuessCommon` of the table in `main`: no call of `rand.Perm`. -/
def GuessCommonStrategy : Strategy :=
  fun _ k d => (GuessCommon d).map (fun e => (e, k))

/-- The strategy `EliminateAndScale` of the table in `main`: one call of `rand.Perm`, in
its call of `RandomExam`. -/
def EliminateAndScaleStrategy : Strategy :=
  fun rand k d => (EliminateAndScale (rand k) d).map (fun e => (e, k + 1))

/-- The variables of the loop of `AssessStrategy`, with the number of calls of `rand.Perm`
made so far. -/
structure AssessState where
  /-- The variable `passes`. -/
  passes : Int
  /-- The variable `totalGrade`. -/
  totalGrade : Int
  /-- The calls of `rand.Perm` made so far. -/
  draws : Nat

/-- The body of the loop of `AssessStrategy`; the strategy `nil` is `none`. -/
def assessTrial (s : Option Strategy) (rand : RandSource) (d : Distribution)
    (st : AssessState) : Option AssessState :=
  match RandomExam (rand st.draws) d with
  | none => none
  | some correct =>
    let guessed : Option (Exam × Nat) :=
      match s with
      | none => some (correct, st.draws + 1)
      | some f => f rand (st.draws + 1) d
    match guessed with
    | none => none
    | some (guess, draws) =>
      let grade := Exam.Check correct guess
      some
        { passes := if PassGrade ≤ grade then goAdd st.passes 1 else st.passes
          totalGrade := goAdd st.totalGrade (grade : Int)
          draws := draws }

/-- The loop `for i := 0; i < iterations; i++` of `AssessStrategy`, `n` being the number
of turns left. -/
def assessLoop (s : Option Strategy) (rand : RandSource) (d : Distribution) :
    Nat → AssessState → Option AssessState
  | 0, st => some st
  | n + 1, st =>
    match assessTrial s rand d st with
    | none => none
    | some st1 => assessLoop s rand d n st1

/-- A `float64` result of the embedding. -/
inductive FloatValue where
  /-- The `float64` nearest to the rational `q`: `q` itself when `q` is a `float64`, as
  every integer below `2 ^ 53` is. -/
  | nearest (q : Rat)
  /-- Not a number, the quotient `0.0 / 0.0`. -/
  | nan
  /-- An infinity (a non-zero number divided by zero), or a quotient of operands that
  `float64` does not hold exactly: the embedding does not follow these. -/
  | notFollowed

/-- The expression `float64(x) / float64(n)` of `AssessStrategy`.  For `|x|` and `|n|`
below `2 ^ 53` both conversions are exact and the division returns the `float64`
nearest to the exact quotient. -/
def floatDiv (x n : Int) : FloatValue :=
  if 9007199254740992 ≤ |x| ∨ 9007199254740992 ≤ |n| then FloatValue.notFollowed
  else if n = 0 then (if x = 0 then FloatValue.nan else FloatValue.notFollowed)
  else FloatValue.nearest ((x : Rat) / (n : Rat))

/-- `type Assessment struct`. -/
structure Assessment where
  /-- The field `AverageGrade`. -/
  AverageGrade : FloatValue
  /-- The field `PassProbability`. -/
  PassProbability : FloatValue

/-- `func AssessStrategy(s Strategy, d Distribution, iterations int) Assessment`, with
the random source as a parameter; `none` when a trial does not return.  The loop runs
`iterations` times, not at all for `iterations <= 0`. -/
def AssessStrategy (s : Option Strategy) (rand : RandSource) (d : Distribution)
    (iterations : Int) : Option Assessment :=
  match assessLoop s rand d iterations.toNat { passes := 0, totalGrade := 0, draws := 0 } with
  | none => none
  | some st =>
    some
      { AverageGrade := floatDiv st.totalGrade iterations
        PassProbability := floatDiv st.passes iterations }

/-- A strategy all of whose trials on `d` reach the perfect grade: every trial returns,
adds `ExamLength` to `totalGrade` and 1 to `passes`. -/
def PerfectTrials (s : Option Strategy) (rand : RandSource) (d : Distribution) : Prop :=
  ∀ st : AssessState, ∃ k, assessTrial s rand d st =
    some { passes := goAdd st.passes 1, totalGrade := goAdd st.totalGrade 100, draws := k }

/-! # Verification

## Go integers -/

theorem wrapInt_of_isGoInt {x : Int} (h : IsGoInt x) : wrapInt x = x := by
  unfold IsGoInt at h; unfold wrapInt; omega

/-! ## Check -/

/-- C10. Grading is symmetric in the key exam and the guess exam:
`e1.Check(e2) == e2.Check(e1)` for all exams. -/
theorem Check_symmetric (e1 e2 : Exam) : Exam.Check e1 e2 = Exam.Check e2 e1 := by
  unfold Exam.Check
  have h : ∀ i, (e1 i = e2 i) = (e2 i = e1 i) := fun i => propext eq_comm
  simp only [h]

/-! ## Valid -/

theorem Valid_unfold (d : Distribution) :
    Distribution.Valid d = Distribution.validLoop [d 0, d 1, d 2, d 3] 0 := by
  simp [Distribution.Valid, List.ofFn_succ]
  rfl

theorem isValid_iff (d : Distribution) :
    Distribution.IsValid d ↔
      (0 ≤ d 0 ∧ 0 ≤ d 1 ∧ 0 ≤ d 2 ∧ 0 ≤ d 3) ∧ d 0 + d 1 + d 2 + d 3 = 100 := by
  unfold Distribution.IsValid
  constructor
  · rintro ⟨h, hs⟩
    exact ⟨⟨h 0, h 1, h 2, h 3⟩, by simpa using hs⟩
  · rintro ⟨⟨h0, h1, h2, h3⟩, hs⟩
    refine ⟨fun k => ?_, by simpa using hs⟩
    fin_cases k <;> assumption

/-- C3, counterexample. All four entries are non-negative Go integers and their sum is
`2 ^ 64 + 100`, not `ExamLength`, yet the running sum of `Valid` wraps around to `100`
and `Valid` returns true. -/
theorem Valid_overflow_counterexample :
    Distribution.Valid ![9223372036854775807, 9223372036854775807, 102, 0] = true ∧
      (∀ k, IsGoInt ((![9223372036854775807, 9223372036854775807, 102, 0] : Distribution) k)) ∧
      ¬ Distribution.IsValid ![9223372036854775807, 9223372036854775807, 102, 0] := by
  refine ⟨by decide, ?_, by decide⟩
  intro k; fin_cases k <;> simp [IsGoInt]

/-- C3, amended. For every distribution whose entries add up, exactly, to less than
`2 ^ 63` (so that the running sum cannot overflow), `Valid` returns true if and only if
every entry is non-negative and the entries sum to `ExamLength`; it is false for
`{24,25,25,25}` and `{-1,26,25,50}` and true for `{25,25,25,25}`. -/
theorem Valid_iff_of_no_overflow (d : Distribution)
    (h : d 0 + d 1 + d 2 + d 3 < 9223372036854775808) :
    (Distribution.Valid d = true ↔ Distribution.IsValid d) ∧
      Distribution.Valid ![24, 25, 25, 25] = false ∧
      Distribution.Valid ![-1, 26, 25, 50] = false ∧
      Distribution.Valid ![25, 25, 25, 25] = true := by
  refine ⟨?_, by decide, by decide, by decide⟩
  rw [Valid_unfold, isValid_iff]
  simp only [Distribution.validLoop, goAdd, wrapInt]
  split_ifs <;> simp <;> omega

/-- Witness of `Valid_iff_of_no_overflow` at `{25,25,25,25}`. -/
theorem Valid_iff_of_no_overflow_witness :
    ((![25, 25, 25, 25] : Distribution) 0 + (![25, 25, 25, 25] : Distribution) 1 +
        (![25, 25, 25, 25] : Distribution) 2 + (![25, 25, 25, 25] : Distribution) 3 <
          9223372036854775808) ∧
      ((Distribution.Valid ![25, 25, 25, 25] = true ↔
          Distribution.IsValid ![25, 25, 25, 25]) ∧
        Distribution.Valid ![24, 25, 25, 25] = false ∧
        Distribution.Valid ![-1, 26, 25, 50] = false ∧
        Distribution.Valid ![25, 25, 25, 25] = true) :=
  ⟨by decide, Valid_iff_of_no_overflow ![25, 25, 25, 25] (by decide)⟩

/-! ## Rank -/

theorem Rank_unfold (d : Distribution) :
    Rank d = fun i =>
      ((sortSlice [⟨0, d 0⟩, ⟨1, d 1⟩, ⟨2, d 2⟩, ⟨3, d 3⟩]).getD i.val ⟨0, 0⟩).position := by
  funext i
  simp [Rank, List.ofFn_succ]
  rfl

theorem sortSlice_four (a b c e : Position) :
    sortSlice [a, b, c, e] =
      insertionInner 3 (insertionInner 2 (insertionInner 1 [a, b, c, e])) := by
  rfl

theorem insertionInner_one (a b c e : Position) :
    insertionInner 1 [a, b, c, e] =
      if b.frequency > a.frequency then [b, a, c, e] else [a, b, c, e] := by
  simp [insertionInner, Rank.less, swapAt]

theorem insertionInner_two (a b c e : Position) :
    insertionInner 2 [a, b, c, e] =
      if c.frequency > b.frequency then insertionInner 1 [a, c, b, e] else [a, b, c, e] := by
  simp [insertionInner, Rank.less, swapAt]

theorem insertionInner_three (a b c e : Position) :
    insertionInner 3 [a, b, c, e] =
      if e.frequency > c.frequency then insertionInner 2 [a, b, e, c] else [a, b, c, e] := by
  simp [insertionInner, Rank.less, swapAt]

theorem positions_four (p0 p1 p2 p3 q : Position) :
    (fun i : Fin 4 => ([p0, p1, p2, p3].getD i.val q).position) =
      ![p0.position, p1.position, p2.position, p3.position] := by
  funext i; fin_cases i <;> rfl

theorem lexSorted_four (d : Distribution) (a b c e : Fin 4)
    (hinj : Function.Injective ![a, b, c, e])
    (h1 : d b < d a ∨ (d b = d a ∧ a < b)) (h2 : d c < d b ∨ (d c = d b ∧ b < c))
    (h3 : d e < d c ∨ (d e = d c ∧ c < e)) :
    LexSorted d ![(a.val : Int), b.val, c.val, e.val] := by
  refine ⟨![a, b, c, e], ?_, hinj, ?_⟩
  · intro i; fin_cases i <;> rfl
  · have h02 : d c < d a ∨ (d c = d a ∧ a < c) := by
      simp only [Fin.lt_def] at h1 h2 ⊢; omega
    have h13 : d e < d b ∨ (d e = d b ∧ b < e) := by
      simp only [Fin.lt_def] at h2 h3 ⊢; omega
    have h03 : d e < d a ∨ (d e = d a ∧ a < e) := by
      simp only [Fin.lt_def] at h1 h13 ⊢; omega
    intro i j hij
    fin_cases i <;> fin_cases j <;>
      first
      | exact absurd hij (by decide)
      | exact h1
      | exact h2
      | exact h3
      | exact h02
      | exact h13
      | exact h03

/-- The result of `Rank` lists every option once, by descending count, equal counts by
ascending index: each of the 24 runs of the insertion sort ends in such a list. -/
theorem Rank_lexSorted (d : Distribution) : LexSorted d (Rank d) := by
  rw [Rank_unfold, sortSlice_four]
  simp only [insertionInner_one, insertionInner_two, insertionInner_three]
  split_ifs <;> simp only [insertionInner_one, insertionInner_two, insertionInner_three] <;>
    split_ifs <;>
    simp only [insertionInner_one, insertionInner_two, insertionInner_three] <;>
    split_ifs <;>
    simp only [positions_four] <;>
    first
    | exact lexSorted_four d 0 1 2 3 (by decide) (by omega) (by omega) (by omega)
    | exact lexSorted_four d 0 1 3 2 (by decide) (by omega) (by omega) (by omega)
    | exact lexSorted_four d 0 2 1 3 (by decide) (by omega) (by omega) (by omega)
    | exact lexSorted_four d 0 2 3 1 (by decide) (by omega) (by omega) (by omega)
    | exact lexSorted_four d 0 3 1 2 (by decide) (by omega) (by omega) (by omega)
    | exact lexSorted_four d 0 3 2 1 (by decide) (by omega) (by omega) (by omega)
    | exact lexSorted_four d 1 0 2 3 (by decide) (by omega) (by omega) (by omega)
    | exact lexSorted_four d 1 0 3 2 (by decide) (by omega) (by omega) (by omega)
    | exact lexSorted_four d 1 2 0 3 (by decide) (by omega) (by omega) (by omega)
    | exact lexSorted_four d 1 2 3 0 (by decide) (by omega) (by omega) (by omega)
    | exact lexSorted_four d 1 3 0 2 (by decide) (by omega) (by omega) (by omega)
    | exact lexSorted_four d 1 3 2 0 (by decide) (by omega) (by omega) (by omega)
    | exact lexSorted_four d 2 0 1 3 (by decide) (by omega) (by omega) (by omega)
    | exact lexSorted_four d 2 0 3 1 (by decide) (by omega) (by omega) (by omega)
    | exact lexSorted_four d 2 1 0 3 (by decide) (by omega) (by omega) (by omega)
    | exact lexSorted_four d 2 1 3 0 (by decide) (by omega) (by omega) (by omega)
    | exact lexSorted_four d 2 3 0 1 (by decide) (by omega) (by omega) (by omega)
    | exact lexSorted_four d 2 3 1 0 (by decide) (by omega) (by omega) (by omega)
    | exact lexSorted_four d 3 0 1 2 (by decide) (by omega) (by omega) (by omega)
    | exact lexSorted_four d 3 0 2 1 (by decide) (by omega) (by omega) (by omega)
    | exact lexSorted_four d 3 1 0 2 (by decide) (by omega) (by omega) (by omega)
    | exact lexSorted_four d 3 1 2 0 (by decide) (by omega) (by omega) (by omega)
    | exact lexSorted_four d 3 2 0 1 (by decide) (by omega) (by omega) (by omega)
    | exact lexSorted_four d 3 2 1 0 (by decide) (by omega) (by omega) (by omega)

/-- The permutation of the options that `Rank d` lists. -/
theorem Rank_perm (d : Distribution) :
    ∃ σ : Equiv.Perm (Fin OptionsPerQuestion), (∀ i, Rank d i = ((σ i).val : Int)) ∧
      ∀ i j, i < j → d (σ j) < d (σ i) ∨ (d (σ j) = d (σ i) ∧ σ i < σ j) := by
  obtain ⟨σ, hr, hinj, hs⟩ := Rank_lexSorted d
  exact ⟨Equiv.ofBijective σ (Finite.injective_iff_bijective.mp hinj), hr, hs⟩

/-- C4. `Rank(d)` is a descending sort of the answer options: its four entries are the
options `σ 0, σ 1, σ 2, σ 3` of a permutation `σ` of `{0,1,2,3}`, so each option occurs
exactly once, and `d[Rank(d)[0]] >= d[Rank(d)[1]] >= d[Rank(d)[2]] >= d[Rank(d)[3]]`;
position 0 holds a most frequent option and position 3 a least frequent one. -/
theorem Rank_descending_permutation (d : Distribution) :
    ∃ σ : Equiv.Perm (Fin OptionsPerQuestion),
      (∀ i, Rank d i = ((σ i).val : Int)) ∧
      (∀ i, Distribution.get d (Rank d i) = some (d (σ i))) ∧
      (∀ k : Fin OptionsPerQuestion, ∃! i, Rank d i = (k.val : Int)) ∧
      d (σ 0) ≥ d (σ 1) ∧ d (σ 1) ≥ d (σ 2) ∧ d (σ 2) ≥ d (σ 3) ∧
      (∀ k, d k ≤ d (σ 0)) ∧ (∀ k, d (σ 3) ≤ d k) := by
  obtain ⟨σ, hr, hs⟩ := Rank_perm d
  have hle : ∀ i j, i ≤ j → d (σ j) ≤ d (σ i) := by
    intro i j hij
    rcases eq_or_lt_of_le hij with h | h
    · rw [h]
    · rcases hs i j h with h1 | h1
      · exact le_of_lt h1
      · exact le_of_eq h1.1
  refine ⟨σ, hr, ?_, ?_, hle 0 1 (by decide), hle 1 2 (by decide), hle 2 3 (by decide), ?_, ?_⟩
  · intro i
    rw [hr i]
    simp [Distribution.get]
  · intro k
    refine ⟨σ.symm k, by show Rank d (σ.symm k) = _; rw [hr]; simp, ?_⟩
    intro j hj
    have hj : Rank d j = (k.val : Int) := hj
    rw [hr j] at hj
    have : σ j = k := Fin.ext (by exact_mod_cast hj)
    rw [← this]; simp
  · intro k
    have := hle 0 (σ.symm k) (Fin.zero_le _)
    simpa using this
  · intro k
    have := hle (σ.symm k) 3 (Fin.le_last _)
    simpa using this

/-- C5. `Rank` breaks ties stably: of two options `a < b` with `d[a] = d[b]`, option `a`
stands before option `b` in `Rank(d)`; and `Rank({25,25,25,25}) = [0,1,2,3]`. -/
theorem Rank_stable (d : Distribution) (a b : Fin OptionsPerQuestion) (hab : a < b)
    (heq : d a = d b) :
    (∃ i j : Fin OptionsPerQuestion, i < j ∧ Rank d i = (a.val : Int) ∧
        Rank d j = (b.val : Int)) ∧
      Rank ![25, 25, 25, 25] = ![0, 1, 2, 3] := by
  refine ⟨?_, by decide⟩
  obtain ⟨σ, hr, hs⟩ := Rank_perm d
  refine ⟨σ.symm a, σ.symm b, ?_, by rw [hr]; simp, by rw [hr]; simp⟩
  rcases lt_trichotomy (σ.symm a) (σ.symm b) with h | h | h
  · exact h
  · have := σ.symm.injective h
    omega
  · rcases hs _ _ h with h1 | h1
    · simp at h1; omega
    · simp at h1; omega

/-- Witness of `Rank_stable`: options 0 and 1 of `{25,25,25,25}`. -/
theorem Rank_stable_witness :
    ((0 : Fin OptionsPerQuestion) < 1 ∧
        (![25, 25, 25, 25] : Distribution) 0 = (![25, 25, 25, 25] : Distribution) 1) ∧
      ((∃ i j : Fin OptionsPerQuestion, i < j ∧
          Rank ![25, 25, 25, 25] i = ((0 : Fin OptionsPerQuestion).val : Int) ∧
          Rank ![25, 25, 25, 25] j = ((1 : Fin OptionsPerQuestion).val : Int)) ∧
        Rank ![25, 25, 25, 25] = ![0, 1, 2, 3]) :=
  ⟨⟨by decide, by decide⟩, Rank_stable ![25, 25, 25, 25] 0 1 (by decide) (by decide)⟩

/-! ## Exam.Distribution -/

theorem incr_of_mem (d0 : Distribution) (k : Fin OptionsPerQuestion) :
    Distribution.incr d0 (k.val : Int) = some (Function.update d0 k (d0 k + 1)) := by
  have hk : ((k.val : Int)).toNat = k.val := by simp
  have h0 : (0 : Int) ≤ (k.val : Int) := by positivity
  unfold Distribution.incr
  rw [if_pos h0]
  have hlt : ((k.val : Int)).toNat < OptionsPerQuestion := by rw [hk]; exact k.isLt
  rw [dif_pos hlt]
  have : (⟨((k.val : Int)).toNat, hlt⟩ : Fin OptionsPerQuestion) = k := Fin.ext hk
  rw [this]

/-- The counting loop of `Exam.Distribution` over answers that are options: every entry
grows by the number of occurrences of its option. -/
theorem foldlM_incr (l : List (Fin OptionsPerQuestion)) (d0 : Distribution) :
    (l.map (fun k => (k.val : Int))).foldlM Distribution.incr d0 =
      some (fun k => d0 k + (l.count k : Int)) := by
  induction l generalizing d0 with
  | nil => simp
  | cons a l ih =>
    simp only [List.map_cons, List.foldlM_cons, incr_of_mem, Option.bind_eq_bind,
      Option.some_bind, ih]
    congr 1
    funext k
    by_cases h : k = a
    · subst h; simp; ring
    · have h2 : ¬ (a = k) := fun e => h e.symm
      simp [Function.update_noteq h, List.count_cons, h2]

/-- The distribution of an exam all of whose answers are options. -/
theorem Distribution_of_options (f : Fin ExamLength → Fin OptionsPerQuestion) :
    Exam.Distribution (fun i => ((f i).val : Int)) =
      some (fun k => ((List.ofFn f).count k : Int)) := by
  unfold Exam.Distribution
  have : List.ofFn (fun i => ((f i).val : Int)) =
      (List.ofFn f).map (fun k => (k.val : Int)) := by
    rw [List.map_ofFn]; rfl
  rw [this, foldlM_incr]
  simp only [zero_add]

/-! ## GuessCommon -/

theorem Exam.set_zero (e : Exam) (v : Answer) :
    Exam.set e 0 v = some (Function.update e 0 v) := by
  simp [Exam.set]

theorem foldlM_set_zero (e : Exam) (v : Answer) (n : Nat) :
    (List.replicate n (0 : Answer)).foldlM (fun acc i => Exam.set acc i v)
      (Function.update e 0 v) = some (Function.update e 0 v) := by
  induction n with
  | zero => simp
  | succ n ih =>
    simp only [List.replicate_succ, List.foldlM_cons, Exam.set_zero, Option.bind_eq_bind,
      Option.some_bind, Function.update_idem, ih]

/-- What `GuessCommon` computes: every turn of its loop writes position 0. -/
theorem GuessCommon_eq (d : Distribution) :
    GuessCommon d = some (Function.update (fun _ => 0) 0 (Rank d 0)) := by
  unfold GuessCommon
  have h : List.ofFn (fun _ : Fin ExamLength => (0 : Answer)) =
      0 :: List.replicate 99 0 := by
    rw [List.ofFn_const]; rfl
  show (List.ofFn (fun _ : Fin ExamLength => (0 : Answer))).foldlM
      (fun acc i => Exam.set acc i (Rank d 0)) (fun _ => 0) = _
  rw [h, List.foldlM_cons, Exam.set_zero, Option.bind_eq_bind, Option.some_bind]
  exact foldlM_set_zero _ _ _

set_option maxRecDepth 100000 in
/-- C2, at the failing input `{10,90,0,0}`. The most common answer is option 1, but the
exam `GuessCommon` returns holds it at position 0 only and answers the other 99
questions with 0: its distribution is `{99,1,0,0}`, not `{0,100,0,0}`. -/
theorem GuessCommon_failing_input :
    Rank ![10, 90, 0, 0] 0 = 1 ∧
      ∃ e, GuessCommon ![10, 90, 0, 0] = some e ∧ e 0 = 1 ∧ (∀ i, i ≠ 0 → e i = 0) ∧
        Exam.Distribution e = some ![99, 1, 0, 0] := by
  have hr : Rank ![10, 90, 0, 0] 0 = 1 := by decide
  refine ⟨hr, _, GuessCommon_eq _, ?_, ?_, ?_⟩
  · simp [hr]
  · intro i hi
    simp [Function.update_noteq hi]
  · rw [hr]
    have : (Function.update (fun _ => 0) 0 1 : Exam) =
        fun i => (((if i = 0 then 1 else 0 : Fin OptionsPerQuestion)).val : Int) := by
      funext i
      by_cases h : i = 0
      · subst h; simp
      · simp [Function.update_noteq h, h]
    rw [this, Distribution_of_options]
    congr 1
    funext k
    fin_cases k <;> decide

/-! ## The fill loop of RandomExam -/

theorem fillLoop_running {n : Nat} {s s1 : FillState} (m : Nat)
    (h : fillLoop n s = FillResult.running s1) : fillLoop (n + m) s = fillLoop m s1 := by
  induction n generalizing s with
  | zero =>
    simp only [fillLoop, FillResult.running.injEq] at h
    simp [h]
  | succ n ih =>
    rw [Nat.add_right_comm]
    simp only [fillLoop] at h ⊢
    cases hs : fillStep s with
    | running s2 => rw [hs] at h; exact ih h
    | finished s2 => rw [hs] at h; cases h
    | indexOutOfRange => rw [hs] at h; cases h

theorem fillLoop_finished {n : Nat} {s s1 : FillState} (m : Nat)
    (h : fillLoop n s = FillResult.finished s1) :
    fillLoop (n + m) s = FillResult.finished s1 := by
  induction n generalizing s with
  | zero => simp [fillLoop] at h
  | succ n ih =>
    rw [Nat.add_right_comm]
    simp only [fillLoop] at h ⊢
    cases hs : fillStep s with
    | running s2 => rw [hs] at h; exact ih h
    | finished s2 => rw [hs] at h; exact h
    | indexOutOfRange => rw [hs] at h; cases h

theorem fillLoop_indexOutOfRange {n : Nat} {s : FillState} (m : Nat)
    (h : fillLoop n s = FillResult.indexOutOfRange) :
    fillLoop (n + m) s = FillResult.indexOutOfRange := by
  induction n generalizing s with
  | zero => simp [fillLoop] at h
  | succ n ih =>
    rw [Nat.add_right_comm]
    simp only [fillLoop] at h ⊢
    cases hs : fillStep s with
    | running s2 => rw [hs] at h; exact ih h
    | finished s2 => rw [hs] at h; cases h
    | indexOutOfRange => rfl

/-- The fill loop stops, whatever the budget: a turn that does not stop it increments
`a` or `i`, and neither passes `OptionsPerQuestion`, respectively `ExamLength`. -/
theorem fillLoop_stops (n : Nat) (s : FillState) (ha : s.a ≤ OptionsPerQuestion)
    (hi : s.i ≤ ExamLength) (hn : (OptionsPerQuestion - s.a) + (ExamLength - s.i) < n) :
    ∀ s1, fillLoop n s ≠ FillResult.running s1 := by
  induction n generalizing s with
  | zero => omega
  | succ n ih =>
    intro s1
    simp only [fillLoop]
    unfold fillStep
    split_ifs with h1 h2 h3
    · exact ih _ (by simp only; omega) (by simpa using hi) (by simp only; omega) s1
    · exact ih _ (by simpa using ha) (by simp only; omega) (by simp only; omega) s1
    · simp
    · simp

/-- The turns `RandomExam` allows its fill loop are enough for every budget: the loop
has stopped, normally or by the out-of-range write, when they are used up. -/
theorem fillLoop_fillFuel_stops (d : Distribution) :
    ∀ s1, fillLoop fillFuel (fillInit d) ≠ FillResult.running s1 :=
  fillLoop_stops fillFuel (fillInit d) (Nat.zero_le _) (Nat.zero_le _)
    (show 4 - 0 + (100 - 0) < 105 by decide)

/-- The emit turns of one option: `m` turns write `m` copies of `a` from position `i`
on and use up the budget `d[a] = m`. -/
theorem fillLoop_emit (m : Nat) (a i : Nat) (d : Distribution) (tmp : Exam)
    (h : a < OptionsPerQuestion) (hd : d ⟨a, h⟩ = (m : Int)) (hi : i + m ≤ ExamLength) :
    fillLoop m ⟨a, i, d, tmp⟩ =
      FillResult.running ⟨a, i + m, Function.update d ⟨a, h⟩ 0,
        fun p => if i ≤ p.val ∧ p.val < i + m then (a : Int) else tmp p⟩ := by
  induction m generalizing i d tmp with
  | zero =>
    simp only [fillLoop, Nat.add_zero, FillResult.running.injEq, FillState.mk.injEq, true_and]
    refine ⟨?_, ?_⟩
    · have h0 : d ⟨a, h⟩ = 0 := by simpa using hd
      rw [← h0, Function.update_eq_self]
    · funext p
      rw [if_neg (by omega)]
  | succ m ih =>
    have hne : d ⟨a, h⟩ ≠ 0 := by rw [hd]; exact_mod_cast Nat.succ_ne_zero m
    have hlt : i < ExamLength := by omega
    have hsub : goSub (d ⟨a, h⟩) 1 = (m : Int) := by
      have hm : m < 100 := by simp only [ExamLength] at hi; omega
      rw [hd]; unfold goSub wrapInt; push_cast; omega
    simp only [fillLoop, fillStep, dif_pos h, if_neg hne, dif_pos hlt, hsub]
    rw [ih (i + 1) _ _ (by simp) (by omega)]
    simp only [FillResult.running.injEq, FillState.mk.injEq, true_and]
    refine ⟨by omega, by simp, ?_⟩
    funext p
    by_cases hp : p = ⟨i, hlt⟩
    · subst hp
      simp
    · have hp2 : p.val ≠ i := fun e => hp (Fin.ext e)
      rw [Function.update_noteq hp]
      by_cases hc : i ≤ p.val ∧ p.val < i + (m + 1)
      · rw [if_pos hc, if_pos (by omega)]
      · rw [if_neg hc, if_neg (by omega)]

/-- One option of the fill loop: `m` emit turns and the turn that advances `a`. -/
theorem fillLoop_option (m : Nat) (a i : Nat) (d : Distribution) (tmp : Exam)
    (h : a < OptionsPerQuestion) (hd : d ⟨a, h⟩ = (m : Int)) (hi : i + m ≤ ExamLength) :
    fillLoop (m + 1) ⟨a, i, d, tmp⟩ =
      FillResult.running ⟨a + 1, i + m, Function.update d ⟨a, h⟩ 0,
        fun p => if i ≤ p.val ∧ p.val < i + m then (a : Int) else tmp p⟩ := by
  rw [fillLoop_running 1 (fillLoop_emit m a i d tmp h hd hi)]
  simp [fillLoop, fillStep, h]

/-- The exit turn: with `a = OptionsPerQuestion` the loop is left. -/
theorem fillLoop_exit (n : Nat) (i : Nat) (d : Distribution) (tmp : Exam) :
    fillLoop (n + 1) ⟨OptionsPerQuestion, i, d, tmp⟩ =
      FillResult.finished ⟨OptionsPerQuestion, i, d, tmp⟩ := by
  simp [fillLoop, fillStep]

/-- The fill loop on a budget of non-negative entries with sum at most `ExamLength`:
after one turn per unit of budget, one per option and the exit turn, the loop is left
with `a = OptionsPerQuestion`, `i` the sum, the budget used up, and `tmp` holding the
sorted answers in its first `i` positions (zero behind them). -/
theorem fillLoop_of_nonneg (d : Distribution) (hd : ∀ k, 0 ≤ d k)
    (hs : d 0 + d 1 + d 2 + d 3 ≤ (ExamLength : Int)) :
    fillLoop ((d 0 + d 1 + d 2 + d 3).toNat + OptionsPerQuestion + 1) (fillInit d) =
      FillResult.finished ⟨OptionsPerQuestion, (d 0 + d 1 + d 2 + d 3).toNat, fun _ => 0,
        fun p => if (p.val : Int) < d 0 + d 1 + d 2 + d 3 then ((sortedAnswers d p).val : Int)
          else 0⟩ := by
  obtain ⟨m0, h0⟩ := Int.eq_ofNat_of_zero_le (hd 0)
  obtain ⟨m1, h1⟩ := Int.eq_ofNat_of_zero_le (hd 1)
  obtain ⟨m2, h2⟩ := Int.eq_ofNat_of_zero_le (hd 2)
  obtain ⟨m3, h3⟩ := Int.eq_ofNat_of_zero_le (hd 3)
  have hsum : m0 + m1 + m2 + m3 ≤ 100 := by
    simp only [ExamLength] at hs; omega
  have hfuel : (d 0 + d 1 + d 2 + d 3).toNat + OptionsPerQuestion + 1 =
      (m0 + 1) + ((m1 + 1) + ((m2 + 1) + ((m3 + 1) + 1))) := by
    simp only [OptionsPerQuestion]; omega
  have hi : (d 0 + d 1 + d 2 + d 3).toNat = 0 + m0 + m1 + m2 + m3 := by omega
  rw [hfuel, hi]
  unfold fillInit
  rw [fillLoop_running _ (fillLoop_option m0 0 0 d _ (by decide) h0 (by simp only [ExamLength]; omega))]
  rw [fillLoop_running _ (fillLoop_option m1 1 (0 + m0) _ _ (by decide)
    (by simpa using h1) (by simp only [ExamLength]; omega))]
  rw [fillLoop_running _ (fillLoop_option m2 2 (0 + m0 + m1) _ _ (by decide)
    (by simpa using h2) (by simp only [ExamLength]; omega))]
  rw [fillLoop_running _ (fillLoop_option m3 3 (0 + m0 + m1 + m2) _ _ (by decide)
    (by simpa using h3) (by simp only [ExamLength]; omega))]
  rw [fillLoop_exit]
  simp only [FillResult.finished.injEq, FillState.mk.injEq, true_and]
  refine ⟨?_, ?_⟩
  · funext k
    fin_cases k <;> simp [Function.update_apply, Fin.ext_iff]
  · funext p
    simp only [sortedAnswers, h0, h1, h2, h3]
    split_ifs <;> first | rfl | omega

/-! ## Counting answers -/

theorem count_ofFn_eq_card {n : Nat} (f : Fin n → Fin OptionsPerQuestion)
    (k : Fin OptionsPerQuestion) :
    (List.ofFn f).count k = (Finset.univ.filter (fun i => f i = k)).card := by
  have h := Fin.card_filter_univ_eq_vector_get_eq_count k (Mathlib.Vector.ofFn f)
  simp only [Mathlib.Vector.get_ofFn, Mathlib.Vector.toList_ofFn] at h
  exact h.symm

theorem card_filter_between (n lo hi : Nat) (h : hi ≤ n) :
    (Finset.univ.filter (fun i : Fin n => lo ≤ i.val ∧ i.val < hi)).card = hi - lo := by
  rw [← Nat.card_Ico]
  refine Finset.card_bij (fun i _ => i.val) ?_ ?_ ?_
  · intro i hi2
    simp only [Finset.mem_filter, Finset.mem_univ, true_and] at hi2
    simp [hi2]
  · intro i _ j _ hij
    exact Fin.ext hij
  · intro b hb
    simp only [Finset.mem_Ico] at hb
    exact ⟨⟨b, by omega⟩, by simp [hb], rfl⟩

/-- The sorted answers of a valid distribution hold every option `k` exactly `d[k]`
times. -/
theorem card_sortedAnswers (d : Distribution) (hd : Distribution.IsValid d)
    (k : Fin OptionsPerQuestion) :
    ((Finset.univ.filter (fun i => sortedAnswers d i = k)).card : Int) = d k := by
  obtain ⟨⟨p0, p1, p2, p3⟩, hs⟩ := (isValid_iff d).mp hd
  have key : ∀ (k : Fin OptionsPerQuestion) (lo hi : Nat), hi ≤ 100 →
      (∀ i : Fin ExamLength, sortedAnswers d i = k ↔ lo ≤ i.val ∧ i.val < hi) →
      (Finset.univ.filter (fun i => sortedAnswers d i = k)).card = hi - lo := by
    intro k lo hi hle hiff
    rw [← card_filter_between ExamLength lo hi hle]
    congr 1
    ext i
    simp [hiff]
  obtain ⟨m0, h0⟩ := Int.eq_ofNat_of_zero_le p0
  obtain ⟨m1, h1⟩ := Int.eq_ofNat_of_zero_le p1
  obtain ⟨m2, h2⟩ := Int.eq_ofNat_of_zero_le p2
  obtain ⟨m3, h3⟩ := Int.eq_ofNat_of_zero_le p3
  have hiff : ∀ i : Fin ExamLength,
      (sortedAnswers d i = 0 ↔ 0 ≤ i.val ∧ i.val < m0) ∧
      (sortedAnswers d i = 1 ↔ m0 ≤ i.val ∧ i.val < m0 + m1) ∧
      (sortedAnswers d i = 2 ↔ m0 + m1 ≤ i.val ∧ i.val < m0 + m1 + m2) ∧
      (sortedAnswers d i = 3 ↔ m0 + m1 + m2 ≤ i.val ∧ i.val < m0 + m1 + m2 + m3) := by
    intro i
    have hlt : i.val < 100 := i.isLt
    have v1 : ((1 : Fin OptionsPerQuestion) : Nat) = 1 := rfl
    have v2 : ((2 : Fin OptionsPerQuestion) : Nat) = 2 := rfl
    have v3 : ((3 : Fin OptionsPerQuestion) : Nat) = 3 := rfl
    simp only [sortedAnswers, h0, h1, h2]
    split_ifs <;> simp [Fin.ext_iff, v1, v2, v3] <;> omega
  have c0 := key 0 0 m0 (by omega) (fun i => (hiff i).1)
  have c1 := key 1 m0 (m0 + m1) (by omega) (fun i => (hiff i).2.1)
  have c2 := key 2 (m0 + m1) (m0 + m1 + m2) (by omega) (fun i => (hiff i).2.2.1)
  have c3 := key 3 (m0 + m1 + m2) (m0 + m1 + m2 + m3) (by omega) (fun i => (hiff i).2.2.2)
  fin_cases k
  · show ((Finset.univ.filter (fun i => sortedAnswers d i = 0)).card : Int) = d 0
    rw [c0, h0]; simp
  · show ((Finset.univ.filter (fun i => sortedAnswers d i = 1)).card : Int) = d 1
    rw [c1, h1]; simp
  · show ((Finset.univ.filter (fun i => sortedAnswers d i = 2)).card : Int) = d 2
    rw [c2, h2]; simp
  · show ((Finset.univ.filter (fun i => sortedAnswers d i = 3)).card : Int) = d 3
    rw [c3, h3]; omega

/-! ## RandomExam -/

theorem foldl_scatter (perm : Equiv.Perm (Fin ExamLength)) (tmp : Exam)
    (l : List (Fin ExamLength)) (init : Exam) :
    l.foldl (fun dest i => Function.update dest (perm i) (tmp i)) init =
      fun j => if perm.symm j ∈ l then tmp (perm.symm j) else init j := by
  induction l generalizing init with
  | nil => simp
  | cons a l ih =>
    rw [List.foldl_cons, ih]
    funext j
    by_cases h : perm.symm j ∈ l
    · simp [h]
    · by_cases ha : perm.symm j = a
      · subst ha
        simp only [h, if_false, List.mem_cons, true_or, if_true]
        rw [show perm (perm.symm j) = j from perm.apply_symm_apply j, Function.update_same]
      · have hj : j ≠ perm a := fun e => ha (by rw [e]; simp)
        simp [h, ha, Function.update_noteq hj]

/-- The scatter loop places `tmp[i]` at position `perm[i]`: position `j` of the result
holds the element of `tmp` whose index the permutation sends to `j`. -/
theorem scatter_eq (perm : Equiv.Perm (Fin ExamLength)) (tmp : Exam) :
    scatter perm tmp = fun j => tmp (perm.symm j) := by
  unfold scatter
  rw [foldl_scatter]
  funext j
  rw [if_pos (List.mem_finRange _)]

/-- On a budget of non-negative entries with sum at most `ExamLength` the fill loop is
left normally and `RandomExam` returns the scattered sequence. -/
theorem RandomExam_of_nonneg (perm : Equiv.Perm (Fin ExamLength)) (d : Distribution)
    (hd : ∀ k, 0 ≤ d k) (hs : d 0 + d 1 + d 2 + d 3 ≤ (ExamLength : Int)) :
    fillLoop fillFuel (fillInit d) =
        FillResult.finished ⟨OptionsPerQuestion, (d 0 + d 1 + d 2 + d 3).toNat, fun _ => 0,
          fun p => if (p.val : Int) < d 0 + d 1 + d 2 + d 3 then
            ((sortedAnswers d p).val : Int) else 0⟩ ∧
      RandomExam perm d = some (fun j =>
        if ((perm.symm j).val : Int) < d 0 + d 1 + d 2 + d 3 then
          ((sortedAnswers d (perm.symm j)).val : Int) else 0) := by
  have hfuel : fillFuel = ((d 0 + d 1 + d 2 + d 3).toNat + OptionsPerQuestion + 1) +
      (ExamLength - (d 0 + d 1 + d 2 + d 3).toNat) := by
    simp only [fillFuel, ExamLength, OptionsPerQuestion] at hs ⊢
    omega
  have h := fillLoop_finished (ExamLength - (d 0 + d 1 + d 2 + d 3).toNat)
    (fillLoop_of_nonneg d hd hs)
  rw [← hfuel] at h
  refine ⟨h, ?_⟩
  unfold RandomExam
  rw [h]
  simp only [scatter_eq]

/-- The exam `RandomExam` returns for a valid distribution. -/
theorem RandomExam_of_isValid (perm : Equiv.Perm (Fin ExamLength)) (d : Distribution)
    (hd : Distribution.IsValid d) :
    RandomExam perm d = some (fun j => ((sortedAnswers d (perm.symm j)).val : Int)) := by
  rw [(RandomExam_of_nonneg perm d hd.1 (le_of_eq hd.2)).2]
  congr 1
  funext j
  have hj : ((perm.symm j).val : Int) < d 0 + d 1 + d 2 + d 3 := by
    rw [hd.2]
    exact_mod_cast (perm.symm j).isLt
  rw [if_pos hj]

/-- The distribution of the scattered sorted answers of a valid distribution. -/
theorem Distribution_scattered (perm : Equiv.Perm (Fin ExamLength)) (d : Distribution)
    (hd : Distribution.IsValid d) :
    Exam.Distribution (fun j => ((sortedAnswers d (perm.symm j)).val : Int)) = some d := by
  rw [Distribution_of_options (fun j => sortedAnswers d (perm.symm j))]
  congr 1
  funext k
  have hp : (List.ofFn (fun j => sortedAnswers d (perm.symm j))).Perm
      (List.ofFn (sortedAnswers d)) :=
    Equiv.Perm.ofFn_comp_perm perm.symm (sortedAnswers d)
  rw [hp.count_eq, count_ofFn_eq_card, card_sortedAnswers d hd]

/-- C1. For every valid distribution `d` and every permutation `perm` of the positions,
`RandomExam(d)` returns an exam whose `Distribution()` is `d`: exactly `d[k]` questions
are answered `k`, for each option `k`. -/
theorem RandomExam_distribution (perm : Equiv.Perm (Fin ExamLength)) (d : Distribution)
    (hd : Distribution.IsValid d) :
    ∃ e, RandomExam perm d = some e ∧ Exam.Distribution e = some d :=
  ⟨_, RandomExam_of_isValid perm d hd, Distribution_scattered perm d hd⟩

/-- Witness of `RandomExam_distribution`: `{25,25,25,25}` and the identity permutation. -/
theorem RandomExam_distribution_witness :
    Distribution.IsValid ![25, 25, 25, 25] ∧
      ∃ e, RandomExam (Equiv.refl _) ![25, 25, 25, 25] = some e ∧
        Exam.Distribution e = some ![25, 25, 25, 25] :=
  ⟨by decide, RandomExam_distribution (Equiv.refl _) ![25, 25, 25, 25] (by decide)⟩

/-! ## The fill loop on an invalid budget -/

/-- Emit turns that run into the end of `tmp`: when the budget of option `a` does not
reach zero within the `r` positions that are left, the loop writes them all and the
next write is out of range. -/
theorem fillLoop_overrun (r : Nat) (a i : Nat) (d : Distribution) (tmp : Exam)
    (h : a < OptionsPerQuestion) (hi : i + r = ExamLength)
    (hbad : ∀ j : Nat, j ≤ r → wrapInt (d ⟨a, h⟩ - j) ≠ 0) :
    fillLoop (r + 1) ⟨a, i, d, tmp⟩ = FillResult.indexOutOfRange := by
  induction r generalizing i d tmp with
  | zero =>
    have hne : d ⟨a, h⟩ ≠ 0 := by
      intro h0
      have := hbad 0 (le_refl 0)
      rw [h0] at this
      exact this (by decide)
    have hlt : ¬ i < ExamLength := by omega
    simp only [fillLoop, fillStep, dif_pos h, if_neg hne, dif_neg hlt]
  | succ r ih =>
    have hne : d ⟨a, h⟩ ≠ 0 := by
      intro h0
      have := hbad 0 (Nat.zero_le _)
      rw [h0] at this
      exact this (by decide)
    have hlt : i < ExamLength := by omega
    rw [fillLoop]
    simp only [fillStep, dif_pos h, if_neg hne, dif_pos hlt]
    refine ih (i + 1) _ _ (by omega) ?_
    intro j hj
    have := hbad (j + 1) (by omega)
    simp only [Function.update_same]
    unfold goSub
    unfold wrapInt at this ⊢
    push_cast at this
    omega

/-- A Go integer that is negative, or larger than the number `r ≤ ExamLength` of
positions left, is not a budget that `r` or fewer decrements bring to zero. -/
theorem budget_overruns (c : Int) (r : Nat) (hc : IsGoInt c) (hr : r ≤ ExamLength)
    (hbad : c < 0 ∨ (r : Int) < c) : ∀ j : Nat, j ≤ r → wrapInt (c - j) ≠ 0 := by
  intro j hj
  unfold IsGoInt at hc
  unfold wrapInt
  simp only [ExamLength] at hr
  omega

theorem fillLoop_option_overrun (n : Nat) (a i : Nat) (d : Distribution) (tmp : Exam)
    (h : a < OptionsPerQuestion) (hi : i ≤ ExamLength) (hc : IsGoInt (d ⟨a, h⟩))
    (hbad : d ⟨a, h⟩ < 0 ∨ ((ExamLength - i : Nat) : Int) < d ⟨a, h⟩) :
    fillLoop ((ExamLength - i + 1) + n) ⟨a, i, d, tmp⟩ = FillResult.indexOutOfRange :=
  fillLoop_indexOutOfRange n
    (fillLoop_overrun (ExamLength - i) a i d tmp h (by omega)
      (budget_overruns _ _ hc (by omega) hbad))

/-- The fill loop on a budget with a negative entry, or with entries that sum to more
than `ExamLength`: the loop is never left normally, the write `tmp[ExamLength]` stops
it. -/
theorem fillLoop_of_bad (d : Distribution) (hgo : ∀ k, IsGoInt (d k))
    (hbad : (∃ k, d k < 0) ∨ (ExamLength : Int) < d 0 + d 1 + d 2 + d 3) :
    fillLoop fillFuel (fillInit d) = FillResult.indexOutOfRange := by
  have hE : (ExamLength : Int) = 100 := rfl
  unfold fillInit
  by_cases g0 : 0 ≤ d 0 ∧ d 0 ≤ 100
  · obtain ⟨m0, h0⟩ := Int.eq_ofNat_of_zero_le g0.1
    by_cases g1 : 0 ≤ d 1 ∧ d 0 + d 1 ≤ 100
    · obtain ⟨m1, h1⟩ := Int.eq_ofNat_of_zero_le g1.1
      by_cases g2 : 0 ≤ d 2 ∧ d 0 + d 1 + d 2 ≤ 100
      · obtain ⟨m2, h2⟩ := Int.eq_ofNat_of_zero_le g2.1
        have g3 : d 3 < 0 ∨ 100 < d 0 + d 1 + d 2 + d 3 := by
          rcases hbad with ⟨k, hk⟩ | hlt
          · fin_cases k
            · exact absurd hk (not_lt.mpr g0.1)
            · exact absurd hk (not_lt.mpr g1.1)
            · exact absurd hk (not_lt.mpr g2.1)
            · exact Or.inl hk
          · exact Or.inr (by rw [hE] at hlt; exact hlt)
        have hf : fillFuel = (m0 + 1) + ((m1 + 1) + ((m2 + 1) +
            ((ExamLength - (0 + m0 + m1 + m2) + 1) + 1))) := by
          simp only [fillFuel, ExamLength, OptionsPerQuestion]; omega
        rw [hf]
        rw [fillLoop_running _ (fillLoop_option m0 0 0 d _ (by decide) h0
          (by simp only [ExamLength]; omega))]
        rw [fillLoop_running _ (fillLoop_option m1 1 (0 + m0) _ _ (by decide)
          (by simpa using h1) (by simp only [ExamLength]; omega))]
        rw [fillLoop_running _ (fillLoop_option m2 2 (0 + m0 + m1) _ _ (by decide)
          (by simpa using h2) (by simp only [ExamLength]; omega))]
        refine fillLoop_option_overrun 1 3 _ _ _ (by decide)
          (by simp only [ExamLength]; omega) ?_ ?_
        · simpa [Function.update_apply, Fin.ext_iff] using hgo 3
        · have e3 : Function.update (Function.update (Function.update d 0 0) 1 0) 2 0 3 = d 3 := by
            rw [Function.update_noteq (show (3 : Fin OptionsPerQuestion) ≠ 2 by decide),
              Function.update_noteq (show (3 : Fin OptionsPerQuestion) ≠ 1 by decide),
              Function.update_noteq (show (3 : Fin OptionsPerQuestion) ≠ 0 by decide)]
          show Function.update (Function.update (Function.update d 0 0) 1 0) 2 0 3 < 0 ∨ _ <
            Function.update (Function.update (Function.update d 0 0) 1 0) 2 0 3
          rw [e3]
          simp only [ExamLength]
          omega
      · have hf : fillFuel = (m0 + 1) + ((m1 + 1) +
            ((ExamLength - (0 + m0 + m1) + 1) + 2)) := by
          simp only [fillFuel, ExamLength, OptionsPerQuestion]; omega
        rw [hf]
        rw [fillLoop_running _ (fillLoop_option m0 0 0 d _ (by decide) h0
          (by simp only [ExamLength]; omega))]
        rw [fillLoop_running _ (fillLoop_option m1 1 (0 + m0) _ _ (by decide)
          (by simpa using h1) (by simp only [ExamLength]; omega))]
        refine fillLoop_option_overrun 2 2 _ _ _ (by decide)
          (by simp only [ExamLength]; omega) ?_ ?_
        · simpa [Function.update_apply, Fin.ext_iff] using hgo 2
        · have e2 : Function.update (Function.update d 0 0) 1 0 2 = d 2 := by
            simp [Function.update_apply, Fin.ext_iff]
          show Function.update (Function.update d 0 0) 1 0 2 < 0 ∨ _ <
            Function.update (Function.update d 0 0) 1 0 2
          rw [e2]
          simp only [ExamLength]
          omega
    · have hf : fillFuel = (m0 + 1) + ((ExamLength - (0 + m0) + 1) + 3) := by
        simp only [fillFuel, ExamLength, OptionsPerQuestion]; omega
      rw [hf]
      rw [fillLoop_running _ (fillLoop_option m0 0 0 d _ (by decide) h0
        (by simp only [ExamLength]; omega))]
      refine fillLoop_option_overrun 3 1 _ _ _ (by decide)
        (by simp only [ExamLength]; omega) ?_ ?_
      · simpa [Function.update_apply, Fin.ext_iff] using hgo 1
      · have e1 : Function.update d 0 0 1 = d 1 := by
          simp [Function.update_apply, Fin.ext_iff]
        show Function.update d 0 0 1 < 0 ∨ _ < Function.update d 0 0 1
        rw [e1]
        simp only [ExamLength]
        omega
  · have hf : fillFuel = (ExamLength - 0 + 1) + 4 := by
      simp only [fillFuel, ExamLength, OptionsPerQuestion]
    rw [hf]
    refine fillLoop_option_overrun 4 0 0 d _ (by decide) (by simp only [ExamLength]; omega)
      (hgo 0) ?_
    show d 0 < 0 ∨ _ < d 0
    simp only [ExamLength]
    omega

/-- C9, counterexample. `{24,25,25,25}` is invalid (its sum is 99), yet the fill loop
started from `a = 0`, `i = 0` reaches its exit condition `a = OptionsPerQuestion` after
99 emit turns and 4 advance turns, with `i = 99`, and `RandomExam` returns an exam. -/
theorem fillLoop_invalid_counterexample :
    ¬ Distribution.IsValid ![24, 25, 25, 25] ∧
      Distribution.Valid ![24, 25, 25, 25] = false ∧
      (∃ s, fillLoop 104 (fillInit ![24, 25, 25, 25]) = FillResult.finished s ∧
        s.a = OptionsPerQuestion ∧ s.i = 99) ∧
      ∃ e, RandomExam (Equiv.refl _) ![24, 25, 25, 25] = some e := by
  refine ⟨by decide, by decide, ?_, ?_⟩
  · exact ⟨_, fillLoop_of_nonneg ![24, 25, 25, 25] (by decide) (by decide), rfl, rfl⟩
  · exact ⟨_, (RandomExam_of_nonneg (Equiv.refl _) ![24, 25, 25, 25] (by decide)
      (by decide)).2⟩

/-- C9, amended. For every invalid distribution `d` of Go integers the fill loop of
`RandomExam(d)` stops.  Either `d` has a negative entry or its entries sum to more than
`ExamLength`: then the loop never reaches its exit condition and `RandomExam` returns no
exam, because the write `tmp[ExamLength]` is out of range and stops the program within
`ExamLength + OptionsPerQuestion + 1` turns.  Or the entries of `d` are non-negative and
sum to less than `ExamLength`: then the loop reaches `a = OptionsPerQuestion` after one
turn per unit of budget and one per option, with `i` the sum, and `RandomExam` returns
an exam. -/
theorem fillLoop_of_invalid (d : Distribution) (hgo : ∀ k, IsGoInt (d k))
    (hinv : ¬ Distribution.IsValid d) :
    (((∃ k, d k < 0) ∨ (ExamLength : Int) < d 0 + d 1 + d 2 + d 3) ∧
        fillLoop fillFuel (fillInit d) = FillResult.indexOutOfRange ∧
        ∀ perm, RandomExam perm d = none) ∨
      ((∀ k, 0 ≤ d k) ∧ d 0 + d 1 + d 2 + d 3 < (ExamLength : Int) ∧
        (∃ s, fillLoop ((d 0 + d 1 + d 2 + d 3).toNat + OptionsPerQuestion + 1) (fillInit d) =
            FillResult.finished s ∧
          s.a = OptionsPerQuestion ∧ s.i = (d 0 + d 1 + d 2 + d 3).toNat) ∧
        ∀ perm, ∃ e, RandomExam perm d = some e) := by
  by_cases hbad : (∃ k, d k < 0) ∨ (ExamLength : Int) < d 0 + d 1 + d 2 + d 3
  · left
    have h := fillLoop_of_bad d hgo hbad
    refine ⟨hbad, h, fun perm => ?_⟩
    unfold RandomExam
    rw [h]
  · right
    have hnn : ∀ k, 0 ≤ d k := by
      intro k
      by_contra hk
      exact hbad (Or.inl ⟨k, not_le.mp hk⟩)
    have hle : d 0 + d 1 + d 2 + d 3 ≤ (ExamLength : Int) := by
      by_contra hk
      exact hbad (Or.inr (not_le.mp hk))
    have hlt : d 0 + d 1 + d 2 + d 3 < (ExamLength : Int) := by
      rcases lt_or_eq_of_le hle with h | h
      · exact h
      · exact absurd ⟨hnn, h⟩ hinv
    exact ⟨hnn, hlt, ⟨_, fillLoop_of_nonneg d hnn hle, rfl, rfl⟩,
      fun perm => ⟨_, (RandomExam_of_nonneg perm d hnn hle).2⟩⟩

/-- Witness of `fillLoop_of_invalid`: the invalid distribution `{-1,26,25,50}`. -/
theorem fillLoop_of_invalid_witness :
    ((∀ k, IsGoInt ((![-1, 26, 25, 50] : Distribution) k)) ∧
        ¬ Distribution.IsValid ![-1, 26, 25, 50]) ∧
      ((((∃ k, (![-1, 26, 25, 50] : Distribution) k < 0) ∨
            (ExamLength : Int) < (![-1, 26, 25, 50] : Distribution) 0 +
              (![-1, 26, 25, 50] : Distribution) 1 + (![-1, 26, 25, 50] : Distribution) 2 +
              (![-1, 26, 25, 50] : Distribution) 3) ∧
          fillLoop fillFuel (fillInit ![-1, 26, 25, 50]) = FillResult.indexOutOfRange ∧
          ∀ perm, RandomExam perm ![-1, 26, 25, 50] = none) ∨
        ((∀ k, 0 ≤ (![-1, 26, 25, 50] : Distribution) k) ∧
          (![-1, 26, 25, 50] : Distribution) 0 + (![-1, 26, 25, 50] : Distribution) 1 +
              (![-1, 26, 25, 50] : Distribution) 2 + (![-1, 26, 25, 50] : Distribution) 3 <
            (ExamLength : Int) ∧
          (∃ s, fillLoop (((![-1, 26, 25, 50] : Distribution) 0 +
                (![-1, 26, 25, 50] : Distribution) 1 + (![-1, 26, 25, 50] : Distribution) 2 +
                (![-1, 26, 25, 50] : Distribution) 3).toNat + OptionsPerQuestion + 1)
              (fillInit ![-1, 26, 25, 50]) = FillResult.finished s ∧
            s.a = OptionsPerQuestion ∧
            s.i = ((![-1, 26, 25, 50] : Distribution) 0 +
                (![-1, 26, 25, 50] : Distribution) 1 + (![-1, 26, 25, 50] : Distribution) 2 +
                (![-1, 26, 25, 50] : Distribution) 3).toNat) ∧
          ∀ perm, ∃ e, RandomExam perm ![-1, 26, 25, 50] = some e)) :=
  ⟨⟨by decide, by decide⟩, fillLoop_of_invalid ![-1, 26, 25, 50] (by decide) (by decide)⟩

/-! ## EliminateAndScale -/

theorem Sum_unfold (d : Distribution) :
    Distribution.Sum d = goAdd (goAdd (goAdd (goAdd 0 (d 0)) (d 1)) (d 2)) (d 3) := by
  simp [Distribution.Sum, List.ofFn_succ]
  rfl

/-- `Sum` is the exact sum when nothing overflows. -/
theorem Sum_of_small (d : Distribution) (hd : ∀ k, 0 ≤ d k ∧ d k ≤ 1000) :
    Distribution.Sum d = d 0 + d 1 + d 2 + d 3 := by
  have h0 := hd 0
  have h1 := hd 1
  have h2 := hd 2
  have h3 := hd 3
  rw [Sum_unfold]
  unfold goAdd wrapInt
  omega

theorem set_of_option (d : Distribution) (k : Fin OptionsPerQuestion) (v : Int) :
    Distribution.set d (k.val : Int) v = some (Function.update d k v) := by
  have hk : ((k.val : Int)).toNat = k.val := by simp
  have h0 : (0 : Int) ≤ (k.val : Int) := by positivity
  unfold Distribution.set
  rw [if_pos h0]
  have hlt : ((k.val : Int)).toNat < OptionsPerQuestion := by rw [hk]; exact k.isLt
  rw [dif_pos hlt]
  have : (⟨((k.val : Int)).toNat, hlt⟩ : Fin OptionsPerQuestion) = k := Fin.ext hk
  rw [this]

theorem scaleEntry_of_small (x S : Int) (hx : 0 ≤ x ∧ x ≤ 100) (hS : 0 < S ∧ S ≤ 100) :
    scaleEntry x S = some (x * (ExamLength : Int) / S) := by
  unfold scaleEntry
  have hg : S ≠ 0 ∧ |x| * (ExamLength : Int) + |S| < 9007199254740992 := by
    rw [abs_of_nonneg hx.1, abs_of_pos hS.1]
    simp only [ExamLength]
    constructor
    · omega
    · push_cast; omega
  rw [if_pos hg, Int.tdiv_eq_ediv (by simp only [ExamLength]; push_cast; omega) (le_of_lt hS.1)]

theorem finRange_four : List.finRange OptionsPerQuestion = [0, 1, 2, 3] := by
  decide

/-- The scaling loop of `EliminateAndScale` on counts between 0 and 100 and a sum
between 1 and 100. -/
theorem scale_loop (d1 : Distribution) (S : Int) (h1 : ∀ k, 0 ≤ d1 k ∧ d1 k ≤ 100)
    (hS : 0 < S ∧ S ≤ 100) :
    (List.finRange OptionsPerQuestion).foldlM
        (fun (acc : Distribution) i => (scaleEntry (acc i) S).map (Function.update acc i)) d1 =
      some (fun k => d1 k * (ExamLength : Int) / S) := by
  have n10 : (1 : Fin OptionsPerQuestion) ≠ 0 := by decide
  have n20 : (2 : Fin OptionsPerQuestion) ≠ 0 := by decide
  have n21 : (2 : Fin OptionsPerQuestion) ≠ 1 := by decide
  have n30 : (3 : Fin OptionsPerQuestion) ≠ 0 := by decide
  have n31 : (3 : Fin OptionsPerQuestion) ≠ 1 := by decide
  have n32 : (3 : Fin OptionsPerQuestion) ≠ 2 := by decide
  rw [finRange_four]
  simp only [List.foldlM_cons, List.foldlM_nil, Option.bind_eq_bind]
  rw [scaleEntry_of_small _ _ (h1 0) hS, Option.map_some', Option.some_bind,
    Function.update_noteq n10, scaleEntry_of_small _ _ (h1 1) hS, Option.map_some',
    Option.some_bind, Function.update_noteq n21, Function.update_noteq n20,
    scaleEntry_of_small _ _ (h1 2) hS, Option.map_some', Option.some_bind,
    Function.update_noteq n32, Function.update_noteq n31, Function.update_noteq n30,
    scaleEntry_of_small _ _ (h1 3) hS, Option.map_some', Option.some_bind]
  simp only [pure]
  congr 1
  funext k
  fin_cases k
  · show Function.update _ 3 _ 0 = _
    rw [Function.update_noteq n30.symm, Function.update_noteq n20.symm,
      Function.update_noteq n10.symm, Function.update_same]
    rfl
  · show Function.update _ 3 _ 1 = _
    rw [Function.update_noteq n31.symm, Function.update_noteq n21.symm, Function.update_same]
    rfl
  · show Function.update _ 3 _ 2 = _
    rw [Function.update_noteq n32.symm, Function.update_same]
    rfl
  · show Function.update _ 3 _ 3 = _
    rw [Function.update_same]
    rfl

/-- The last entry of `Rank(d)` is an option of least count. -/
theorem Rank_last (d : Distribution) :
    ∃ L : Fin OptionsPerQuestion,
      Rank d ⟨OptionsPerQuestion - 1, by decide⟩ = (L.val : Int) ∧ ∀ k, d L ≤ d k := by
  obtain ⟨σ, hr, hs⟩ := Rank_perm d
  refine ⟨σ 3, hr 3, fun k => ?_⟩
  rcases eq_or_lt_of_le (Fin.le_last (σ.symm k)) with h | h
  · have : σ (σ.symm k) = σ 3 := by rw [h]; rfl
    rw [Equiv.apply_symm_apply] at this
    rw [this]
  · rcases hs _ _ h with h1 | h1
    · rw [Equiv.apply_symm_apply] at h1
      exact le_of_lt h1
    · rw [Equiv.apply_symm_apply] at h1
      exact le_of_eq h1.1

theorem sum_update_zero (d : Distribution) (L : Fin OptionsPerQuestion) :
    Function.update d L 0 0 + Function.update d L 0 1 + Function.update d L 0 2 +
      Function.update d L 0 3 = d 0 + d 1 + d 2 + d 3 - d L := by
  have hL : L = 0 ∨ L = 1 ∨ L = 2 ∨ L = 3 := by
    revert L; decide
  have n01 : (0 : Fin OptionsPerQuestion) ≠ 1 := by decide
  have n02 : (0 : Fin OptionsPerQuestion) ≠ 2 := by decide
  have n03 : (0 : Fin OptionsPerQuestion) ≠ 3 := by decide
  have n12 : (1 : Fin OptionsPerQuestion) ≠ 2 := by decide
  have n13 : (1 : Fin OptionsPerQuestion) ≠ 3 := by decide
  have n23 : (2 : Fin OptionsPerQuestion) ≠ 3 := by decide
  rcases hL with rfl | rfl | rfl | rfl
  · rw [Function.update_same, Function.update_noteq n01.symm, Function.update_noteq n02.symm,
      Function.update_noteq n03.symm]
    ring
  · rw [Function.update_same, Function.update_noteq n01, Function.update_noteq n12.symm,
      Function.update_noteq n13.symm]
    ring
  · rw [Function.update_same, Function.update_noteq n02, Function.update_noteq n12,
      Function.update_noteq n23.symm]
    ring
  · rw [Function.update_same, Function.update_noteq n03, Function.update_noteq n13,
      Function.update_noteq n23]
    ring

/-- The scaled counts of a valid distribution do not exceed `ExamLength` in total. -/
theorem scaled_sum_le (x0 x1 x2 x3 S : Int) (hS : 0 < S)
    (hsum : x0 + x1 + x2 + x3 = S) :
    x0 * 100 / S + x1 * 100 / S + x2 * 100 / S + x3 * 100 / S ≤ 100 := by
  have h0 := Int.ediv_mul_le (x0 * 100) (ne_of_gt hS)
  have h1 := Int.ediv_mul_le (x1 * 100) (ne_of_gt hS)
  have h2 := Int.ediv_mul_le (x2 * 100) (ne_of_gt hS)
  have h3 := Int.ediv_mul_le (x3 * 100) (ne_of_gt hS)
  have h : (x0 * 100 / S + x1 * 100 / S + x2 * 100 / S + x3 * 100 / S) * S ≤ 100 * S := by
    have : (x0 * 100 / S + x1 * 100 / S + x2 * 100 / S + x3 * 100 / S) * S =
        x0 * 100 / S * S + x1 * 100 / S * S + x2 * 100 / S * S + x3 * 100 / S * S := by ring
    rw [this]
    have : 100 * S = x0 * 100 + x1 * 100 + x2 * 100 + x3 * 100 := by rw [← hsum]; ring
    rw [this]
    omega
  exact le_of_mul_le_mul_right h hS

/-- On a valid distribution `EliminateAndScale` is `RandomExam` on the scaled
distribution of the specification, which is valid. -/
theorem EliminateAndScale_of_isValid (perm : Equiv.Perm (Fin ExamLength)) (d : Distribution)
    (hd : Distribution.IsValid d) :
    ∃ L : Fin OptionsPerQuestion,
      Rank d ⟨OptionsPerQuestion - 1, by decide⟩ = (L.val : Int) ∧ (∀ k, d L ≤ d k) ∧
      EliminateAndScale perm d = RandomExam perm (scaledDistribution d L) ∧
      Distribution.IsValid (scaledDistribution d L) := by
  obtain ⟨L, hL, hmin⟩ := Rank_last d
  obtain ⟨⟨p0, p1, p2, p3⟩, hs⟩ := (isValid_iff d).mp hd
  have hnn : ∀ k, 0 ≤ d k := hd.1
  have hle : ∀ k, d k ≤ 100 := by
    intro k
    have hk : k = 0 ∨ k = 1 ∨ k = 2 ∨ k = 3 := by revert k; decide
    rcases hk with rfl | rfl | rfl | rfl <;> omega
  have hL25 : d L ≤ 25 := by
    have h0 := hmin 0
    have h1 := hmin 1
    have h2 := hmin 2
    have h3 := hmin 3
    omega
  have hL0 := hnn L
  -- after the elimination
  have h1 : ∀ k, 0 ≤ Function.update d L 0 k ∧ Function.update d L 0 k ≤ 100 := by
    intro k
    by_cases hk : k = L
    · subst hk; simp
    · rw [Function.update_noteq hk]; exact ⟨hnn k, hle k⟩
  have hsum1 : Distribution.Sum (Function.update d L 0) = d 0 + d 1 + d 2 + d 3 - d L := by
    rw [Sum_of_small _ (fun k => ⟨(h1 k).1, by have := (h1 k).2; omega⟩), sum_update_zero]
  have hS : 0 < d 0 + d 1 + d 2 + d 3 - d L ∧ d 0 + d 1 + d 2 + d 3 - d L ≤ 100 := by
    omega
  -- after the scaling
  have hc : (fun k => Function.update d L 0 k * (ExamLength : Int) /
      (d 0 + d 1 + d 2 + d 3 - d L)) =
      fun k => if k = L then 0 else d k * (ExamLength : Int) / (d 0 + d 1 + d 2 + d 3 - d L) := by
    funext k
    by_cases hk : k = L
    · subst hk; simp
    · rw [Function.update_noteq hk, if_neg hk]
  have hq0 : ∀ k, 0 ≤ (fun k => Function.update d L 0 k * (ExamLength : Int) /
      (d 0 + d 1 + d 2 + d 3 - d L)) k := by
    intro k
    exact Int.ediv_nonneg (mul_nonneg (h1 k).1 (by decide)) (le_of_lt hS.1)
  have hqs := scaled_sum_le (Function.update d L 0 0) (Function.update d L 0 1)
    (Function.update d L 0 2) (Function.update d L 0 3) _ hS.1 (sum_update_zero d L)
  have hq0' := hq0 0
  have hq1' := hq0 1
  have hq2' := hq0 2
  have hq3' := hq0 3
  simp only [ExamLength, Nat.cast_ofNat] at hq0' hq1' hq2' hq3'
  have hsum2 : Distribution.Sum (fun k => Function.update d L 0 k * (ExamLength : Int) /
      (d 0 + d 1 + d 2 + d 3 - d L)) =
      Function.update d L 0 0 * 100 / (d 0 + d 1 + d 2 + d 3 - d L) +
      Function.update d L 0 1 * 100 / (d 0 + d 1 + d 2 + d 3 - d L) +
      Function.update d L 0 2 * 100 / (d 0 + d 1 + d 2 + d 3 - d L) +
      Function.update d L 0 3 * 100 / (d 0 + d 1 + d 2 + d 3 - d L) := by
    rw [Sum_of_small]
    · simp only [ExamLength, Nat.cast_ofNat]
    · intro k
      refine ⟨hq0 k, ?_⟩
      have hk : k = 0 ∨ k = 1 ∨ k = 2 ∨ k = 3 := by revert k; decide
      simp only [ExamLength, Nat.cast_ofNat]
      rcases hk with rfl | rfl | rfl | rfl <;> omega
  have e0 := congrFun hc 0
  have e1 := congrFun hc 1
  have e2 := congrFun hc 2
  have e3 := congrFun hc 3
  simp only [ExamLength, Nat.cast_ofNat] at e0 e1 e2 e3
  have hsd : scaledDistribution d L =
      Function.update (fun k => Function.update d L 0 k * 100 / (d 0 + d 1 + d 2 + d 3 - d L)) 0
        (Function.update d L 0 0 * 100 / (d 0 + d 1 + d 2 + d 3 - d L) + (100 -
          (Function.update d L 0 0 * 100 / (d 0 + d 1 + d 2 + d 3 - d L) +
            Function.update d L 0 1 * 100 / (d 0 + d 1 + d 2 + d 3 - d L) +
            Function.update d L 0 2 * 100 / (d 0 + d 1 + d 2 + d 3 - d L) +
            Function.update d L 0 3 * 100 / (d 0 + d 1 + d 2 + d 3 - d L)))) := by
    unfold scaledDistribution
    simp only [ExamLength, Nat.cast_ofNat] at hc ⊢
    rw [← hc, ← e0, ← e1, ← e2, ← e3]
  refine ⟨L, hL, hmin, ?_, ?_⟩
  · unfold EliminateAndScale
    simp only [Option.bind_eq_bind]
    rw [hL, set_of_option, Option.some_bind, hsum1, scale_loop _ _ h1 hS, Option.some_bind, hsum2,
      hsd]
    simp only [ExamLength, Nat.cast_ofNat]
    refine congrArg (RandomExam perm) (congrArg (Function.update _ 0) ?_)
    unfold goAdd goSub wrapInt
    omega
  · rw [isValid_iff, hsd]
    have n10 : (1 : Fin OptionsPerQuestion) ≠ 0 := by decide
    have n20 : (2 : Fin OptionsPerQuestion) ≠ 0 := by decide
    have n30 : (3 : Fin OptionsPerQuestion) ≠ 0 := by decide
    rw [Function.update_same, Function.update_noteq n10, Function.update_noteq n20,
      Function.update_noteq n30]
    omega

/-- A valid distribution passes the check of `Valid`. -/
theorem Valid_of_isValid (d : Distribution) (hd : Distribution.IsValid d) :
    Distribution.Valid d = true := by
  obtain ⟨⟨p0, p1, p2, p3⟩, hs⟩ := (isValid_iff d).mp hd
  rw [Valid_unfold]
  simp only [Distribution.validLoop]
  rw [if_neg (not_lt.mpr p0), if_neg (not_lt.mpr p1), if_neg (not_lt.mpr p2),
    if_neg (not_lt.mpr p3), beq_iff_eq]
  simp only [goAdd, wrapInt, ExamLength, Nat.cast_ofNat]
  omega

/-- C6. For every valid distribution `d` and every permutation drawn by `RandomExam`,
`EliminateAndScale(d)` returns an exam whose distribution is exactly the scaled
distribution `c` of the specification: with `L = Rank(d)[3]` and `S = Sum(d) - d[L]`,
`c[L]` starts at 0 and `c[k] = floor(d[k] * ExamLength / S)` for `k ≠ L`, and then `c[0]`
is increased by the shortfall `ExamLength - (c[0]+c[1]+c[2]+c[3])`; this `c` has
non-negative entries and sums to `ExamLength`, so it is valid input for `RandomExam`. -/
theorem EliminateAndScale_distribution (perm : Equiv.Perm (Fin ExamLength))
    (d : Distribution) (hd : Distribution.IsValid d) :
    ∃ (L : Fin OptionsPerQuestion) (e : Exam),
      Rank d ⟨OptionsPerQuestion - 1, by decide⟩ = (L.val : Int) ∧
      EliminateAndScale perm d = some e ∧
      Exam.Distribution e = some (scaledDistribution d L) ∧
      Distribution.IsValid (scaledDistribution d L) ∧
      Distribution.Valid (scaledDistribution d L) = true := by
  obtain ⟨L, hL, _, he, hv⟩ := EliminateAndScale_of_isValid perm d hd
  refine ⟨L, _, hL, ?_, Distribution_scattered perm _ hv, hv, Valid_of_isValid _ hv⟩
  rw [he]
  exact RandomExam_of_isValid perm _ hv

/-- Witness of `EliminateAndScale_distribution`: `{54,20,13,13}` and the identity
permutation. -/
theorem EliminateAndScale_distribution_witness :
    Distribution.IsValid ![54, 20, 13, 13] ∧
      ∃ (L : Fin OptionsPerQuestion) (e : Exam),
        Rank ![54, 20, 13, 13] ⟨OptionsPerQuestion - 1, by decide⟩ = (L.val : Int) ∧
        EliminateAndScale (Equiv.refl _) ![54, 20, 13, 13] = some e ∧
        Exam.Distribution e = some (scaledDistribution ![54, 20, 13, 13] L) ∧
        Distribution.IsValid (scaledDistribution ![54, 20, 13, 13] L) ∧
        Distribution.Valid (scaledDistribution ![54, 20, 13, 13] L) = true :=
  ⟨by decide, EliminateAndScale_distribution (Equiv.refl _) ![54, 20, 13, 13] (by decide)⟩

/-- C7, at the failing input `{10,30,30,30}`. The least frequent option `Rank(d)[3]` is
option 0; its count is set to 0, the other counts are scaled to 33 each, and the
shortfall of 1 is added to the count of option 0, the eliminated one: for every
permutation the exam `EliminateAndScale` returns answers one question with option 0
(its distribution is `{1,33,33,33}`). -/
theorem EliminateAndScale_failing_input :
    Distribution.IsValid ![10, 30, 30, 30] ∧
      Rank ![10, 30, 30, 30] ⟨OptionsPerQuestion - 1, by decide⟩ = 0 ∧
      ∀ perm, ∃ e, EliminateAndScale perm ![10, 30, 30, 30] = some e ∧
        Exam.Distribution e = some ![1, 33, 33, 33] := by
  have hr : Rank ![10, 30, 30, 30] ⟨OptionsPerQuestion - 1, by decide⟩ = 0 := by decide
  refine ⟨by decide, hr, fun perm => ?_⟩
  obtain ⟨L, hL, _, he, hv⟩ := EliminateAndScale_of_isValid perm ![10, 30, 30, 30] (by decide)
  have hL0 : L = 0 := by
    rw [hr] at hL
    exact Fin.ext (by exact_mod_cast hL.symm)
  subst hL0
  have hc : scaledDistribution ![10, 30, 30, 30] 0 = ![1, 33, 33, 33] := by decide
  rw [hc] at he hv
  exact ⟨_, by rw [he]; exact RandomExam_of_isValid perm _ hv, Distribution_scattered perm _ hv⟩

/-! ## RandomExam as a uniform shuffle -/

theorem incr_isSome {d0 d1 : Distribution} {a : Answer}
    (h : Distribution.incr d0 a = some d1) : 0 ≤ a ∧ a.toNat < OptionsPerQuestion := by
  unfold Distribution.incr at h
  split_ifs at h with h0 h1
  exact ⟨h0, h1⟩

theorem foldlM_incr_some (l : List Answer) (d0 d1 : Distribution)
    (h : l.foldlM Distribution.incr d0 = some d1) :
    ∀ a ∈ l, 0 ≤ a ∧ a.toNat < OptionsPerQuestion := by
  induction l generalizing d0 with
  | nil => intro a ha; cases ha
  | cons b l ih =>
    rw [List.foldlM_cons] at h
    cases hb : Distribution.incr d0 b with
    | none => rw [hb] at h; cases h
    | some d2 =>
      rw [hb] at h
      intro a ha
      rcases List.mem_cons.mp ha with rfl | ha
      · exact incr_isSome hb
      · exact ih d2 h a ha

/-- An exam that has a distribution answers every question with an option, and the
distribution counts the questions of every option. -/
theorem options_of_Distribution (e : Exam) (d : Distribution)
    (h : Exam.Distribution e = some d) :
    ∃ g : Fin ExamLength → Fin OptionsPerQuestion,
      e = (fun i => ((g i).val : Int)) ∧
      ∀ k, ((Finset.univ.filter (fun i => g i = k)).card : Int) = d k := by
  have hr : ∀ i, 0 ≤ e i ∧ (e i).toNat < OptionsPerQuestion := by
    intro i
    exact foldlM_incr_some _ _ _ h (e i) (by rw [List.mem_ofFn]; exact ⟨i, rfl⟩)
  have he : e = (fun i => (((⟨(e i).toNat, (hr i).2⟩ : Fin OptionsPerQuestion)).val : Int)) := by
    funext i
    simp [Int.toNat_of_nonneg (hr i).1]
  refine ⟨fun i => ⟨(e i).toNat, (hr i).2⟩, he, fun k => ?_⟩
  rw [he, Distribution_of_options] at h
  have := congrFun (Option.some.inj h) k
  rw [← this, count_ofFn_eq_card]

/-- Two sequences of options with the same counts differ by a permutation of the
positions. -/
theorem exists_perm_of_card_eq (f g : Fin ExamLength → Fin OptionsPerQuestion)
    (h : ∀ k, (Finset.univ.filter (fun i => f i = k)).card =
      (Finset.univ.filter (fun i => g i = k)).card) :
    ∃ τ : Equiv.Perm (Fin ExamLength), ∀ x, g (τ x) = f x := by
  have hc : ∀ k, Nonempty ({ a // f a = k } ≃ { b // g b = k }) := by
    intro k
    apply Fintype.card_eq.mp
    rw [Fintype.card_subtype, Fintype.card_subtype]
    exact h k
  exact ⟨Equiv.ofFiberEquiv (fun k => (hc k).some), fun x => Equiv.ofFiberEquiv_map _ x⟩

theorem card_perm_of_fiber (f g : Fin ExamLength → Fin OptionsPerQuestion)
    (τ : Equiv.Perm (Fin ExamLength)) (hτ : ∀ x, g (τ x) = f x) :
    Fintype.card { perm : Equiv.Perm (Fin ExamLength) // (fun j => f (perm.symm j)) = g } =
      Fintype.card { σ : Equiv.Perm (Fin ExamLength) // f ∘ σ = f } := by
  apply Fintype.card_congr
  refine Equiv.subtypeEquiv ⟨fun p => p⁻¹ * τ, fun σ => τ * σ⁻¹, ?_, ?_⟩ ?_
  · intro p; simp
  · intro σ; simp
  · intro p
    constructor
    · intro hp
      funext x
      have := congrFun hp (τ x)
      simp only [Function.comp_apply, Equiv.coe_fn_mk, Equiv.Perm.mul_apply]
      rw [hτ] at this
      exact this
    · intro hp
      funext j
      have := congrFun hp (τ.symm j)
      simp only [Function.comp_apply, Equiv.coe_fn_mk, Equiv.Perm.mul_apply,
        Equiv.apply_symm_apply] at this
      rw [← hτ (τ.symm j), Equiv.apply_symm_apply] at this
      exact this

/-- C8. `RandomExam` is a uniform shuffle of the answers given by `d`: for every valid
distribution `d`, every exam `e` with `Distribution(e) = d` is the result of
`RandomExam(d)` for exactly `d[0]! * d[1]! * d[2]! * d[3]!` of the `100!` permutations
of the positions, and no permutation yields an exam with another distribution. -/
theorem RandomExam_uniform (d : Distribution) (hd : Distribution.IsValid d) (e : Exam)
    (he : Exam.Distribution e = some d) :
    Fintype.card { perm : Equiv.Perm (Fin ExamLength) // RandomExam perm d = some e } =
        Nat.factorial (d 0).toNat * Nat.factorial (d 1).toNat * Nat.factorial (d 2).toNat *
          Nat.factorial (d 3).toNat ∧
      Fintype.card (Equiv.Perm (Fin ExamLength)) = Nat.factorial ExamLength ∧
      ∀ perm, ∃ e1, RandomExam perm d = some e1 ∧ Exam.Distribution e1 = some d := by
  refine ⟨?_, by rw [Fintype.card_perm, Fintype.card_fin], fun perm =>
    ⟨_, RandomExam_of_isValid perm d hd, Distribution_scattered perm d hd⟩⟩
  obtain ⟨g, hg, hcard⟩ := options_of_Distribution e d he
  have hfib : ∀ k, (Finset.univ.filter (fun i => sortedAnswers d i = k)).card =
      (Finset.univ.filter (fun i => g i = k)).card := by
    intro k
    have h1 := card_sortedAnswers d hd k
    have h2 := hcard k
    omega
  obtain ⟨τ, hτ⟩ := exists_perm_of_card_eq (sortedAnswers d) g hfib
  have hiff : ∀ perm : Equiv.Perm (Fin ExamLength),
      RandomExam perm d = some e ↔ (fun j => sortedAnswers d (perm.symm j)) = g := by
    intro perm
    rw [RandomExam_of_isValid perm d hd, hg, Option.some.injEq]
    constructor
    · intro h
      funext j
      have := congrFun h j
      exact Fin.ext (by exact_mod_cast this)
    · intro h
      funext j
      rw [← h]
  rw [Fintype.card_congr (Equiv.subtypeEquivRight hiff), card_perm_of_fiber _ _ τ hτ,
    DomMulAct.stabilizer_card, Fin.prod_univ_four]
  have hk : ∀ k, Fintype.card { a // sortedAnswers d a = k } = (d k).toNat := by
    intro k
    rw [Fintype.card_subtype]
    have h1 := card_sortedAnswers d hd k
    omega
  rw [hk 0, hk 1, hk 2, hk 3]

/-- Witness of `RandomExam_uniform`: `{100,0,0,0}` and the exam answering 0 everywhere. -/
theorem RandomExam_uniform_witness :
    (Distribution.IsValid ![100, 0, 0, 0] ∧
        Exam.Distribution (fun _ => 0) = some ![100, 0, 0, 0]) ∧
      (Fintype.card { perm : Equiv.Perm (Fin ExamLength) //
            RandomExam perm ![100, 0, 0, 0] = some (fun _ => 0) } =
          Nat.factorial ((![100, 0, 0, 0] : Distribution) 0).toNat *
            Nat.factorial ((![100, 0, 0, 0] : Distribution) 1).toNat *
            Nat.factorial ((![100, 0, 0, 0] : Distribution) 2).toNat *
            Nat.factorial ((![100, 0, 0, 0] : Distribution) 3).toNat ∧
        Fintype.card (Equiv.Perm (Fin ExamLength)) = Nat.factorial ExamLength ∧
        ∀ perm, ∃ e1, RandomExam perm ![100, 0, 0, 0] = some e1 ∧
          Exam.Distribution e1 = some ![100, 0, 0, 0]) :=
  have hdist : Exam.Distribution (fun _ => 0) = some ![100, 0, 0, 0] := by
    refine (Distribution_of_options (fun _ => 0)).trans (congrArg some (funext fun k => ?_))
    rw [List.ofFn_const, List.count_replicate]
    revert k
    decide
  ⟨⟨by decide, hdist⟩, RandomExam_uniform ![100, 0, 0, 0] (by decide) (fun _ => 0) hdist⟩

/-! ## Check as a count -/

theorem foldl_grade {α : Type} (p : α → Prop) [DecidablePred p] (l : List α) (g : Nat) :
    l.foldl (fun grade i => if p i then grade + 1 else grade) g = g + (l.filter p).length := by
  induction l generalizing g with
  | nil => simp
  | cons a l ih =>
    rw [List.foldl_cons, ih]
    by_cases h : p a
    · simp [h]; omega
    · simp [h]

theorem card_filter_finRange {n : Nat} (p : Fin n → Prop) [DecidablePred p] :
    (Finset.univ.filter p).card = ((List.finRange n).filter p).length := by
  rfl

/-- The grade is the number of positions at which the two exams agree. -/
theorem Check_eq_card (e1 e2 : Exam) :
    Exam.Check e1 e2 = (Finset.univ.filter (fun i => e1 i = e2 i)).card := by
  unfold Exam.Check
  rw [foldl_grade (fun i => e1 i = e2 i), card_filter_finRange, Nat.zero_add]

theorem Check_self (e : Exam) : Exam.Check e e = ExamLength := by
  rw [Check_eq_card]
  have : Finset.univ.filter (fun i : Fin ExamLength => e i = e i) = Finset.univ := by
    ext i; simp
  rw [this, Finset.card_univ, Fintype.card_fin]

/-- C11. For every exam `e`, `e.Check(e) == ExamLength`: grading an exam against
itself gives the perfect grade 100. -/
theorem Check_self_perfect (e : Exam) : Exam.Check e e = ExamLength :=
  Check_self e

/-- C12. For all exams `e1` and `e2`, whatever their answer values, the grade
`e1.Check(e2)` is the number of positions `i` in `0..ExamLength-1` with `e1[i] = e2[i]`,
and therefore `0 <= e1.Check(e2) <= ExamLength`. -/
theorem Check_count_bounds (e1 e2 : Exam) :
    Exam.Check e1 e2 = (Finset.univ.filter (fun i => e1 i = e2 i)).card ∧
      0 ≤ Exam.Check e1 e2 ∧ Exam.Check e1 e2 ≤ ExamLength := by
  refine ⟨Check_eq_card e1 e2, Nat.zero_le _, ?_⟩
  rw [Check_eq_card]
  calc (Finset.univ.filter (fun i => e1 i = e2 i)).card
      ≤ (Finset.univ : Finset (Fin ExamLength)).card := Finset.card_filter_le _ _
    _ = ExamLength := by rw [Finset.card_univ, Fintype.card_fin]

/-! ## The distribution of an exam -/

theorem sum_card_fibers (g : Fin ExamLength → Fin OptionsPerQuestion) :
    (Finset.univ.filter (fun i => g i = 0)).card + (Finset.univ.filter (fun i => g i = 1)).card +
      (Finset.univ.filter (fun i => g i = 2)).card +
      (Finset.univ.filter (fun i => g i = 3)).card = ExamLength := by
  have h := Finset.card_eq_sum_card_fiberwise (s := (Finset.univ : Finset (Fin ExamLength)))
    (t := (Finset.univ : Finset (Fin OptionsPerQuestion))) (f := g)
    (fun x _ => Finset.mem_univ _)
  rw [Finset.card_univ, Fintype.card_fin, Fin.sum_univ_four] at h
  exact h.symm

/-- C13. For every exam `e` whose `ExamLength` answers all lie in
`0..OptionsPerQuestion-1`, `e.Distribution()` indexes no entry out of range and counts
each answer value (entry `k` is the number of positions holding `k`); the result is a
valid distribution: every entry is non-negative, the entries sum to `ExamLength`, and
`e.Distribution().Valid()` is true. -/
theorem Distribution_valid (e : Exam)
    (he : ∀ i, 0 ≤ e i ∧ e i < (OptionsPerQuestion : Int)) :
    ∃ c : Distribution, Exam.Distribution e = some c ∧
      (∀ k : Fin OptionsPerQuestion,
        c k = ((Finset.univ.filter (fun i => e i = (k.val : Int))).card : Int)) ∧
      Distribution.IsValid c ∧ Distribution.Valid c = true := by
  have hlt : ∀ i, (e i).toNat < OptionsPerQuestion := by
    intro i
    exact (Int.toNat_lt (he i).1).mpr (he i).2
  have heq : e = (fun i => (((⟨(e i).toNat, hlt i⟩ : Fin OptionsPerQuestion)).val : Int)) := by
    funext i
    simp [Int.toNat_of_nonneg (he i).1]
  have hfil : ∀ k : Fin OptionsPerQuestion,
      Finset.univ.filter (fun i => e i = (k.val : Int)) =
        Finset.univ.filter (fun i => (⟨(e i).toNat, hlt i⟩ : Fin OptionsPerQuestion) = k) := by
    intro k
    ext i
    simp only [Finset.mem_filter, Finset.mem_univ, true_and, Fin.ext_iff]
    have h0 := Int.toNat_of_nonneg (he i).1
    constructor
    · intro h
      rw [h]
      simp
    · intro h
      rw [← h0]
      exact_mod_cast h
  have hd : Exam.Distribution e = some (fun k =>
      ((Finset.univ.filter (fun i => e i = (k.val : Int))).card : Int)) := by
    conv_lhs => rw [heq]
    rw [Distribution_of_options]
    congr 1
    funext k
    rw [count_ofFn_eq_card, hfil]
  have hv : Distribution.IsValid (fun k : Fin OptionsPerQuestion =>
      ((Finset.univ.filter (fun i => e i = (k.val : Int))).card : Int)) := by
    refine ⟨fun k => Int.natCast_nonneg _, ?_⟩
    have h := sum_card_fibers (fun i => (⟨(e i).toNat, hlt i⟩ : Fin OptionsPerQuestion))
    simp only [hfil]
    exact_mod_cast h
  exact ⟨_, hd, fun k => rfl, hv, Valid_of_isValid _ hv⟩

/-- Witness of `Distribution_valid`: the exam answering every question with 0. -/
theorem Distribution_valid_witness :
    (∀ i : Fin ExamLength, 0 ≤ ((fun _ => 0) : Exam) i ∧
        ((fun _ => 0) : Exam) i < (OptionsPerQuestion : Int)) ∧
      ∃ c : Distribution, Exam.Distribution (fun _ => 0) = some c ∧
        (∀ k : Fin OptionsPerQuestion,
          c k = ((Finset.univ.filter
            (fun i => ((fun _ => 0) : Exam) i = (k.val : Int))).card : Int)) ∧
        Distribution.IsValid c ∧ Distribution.Valid c = true :=
  ⟨fun _ => ⟨le_refl _, show (0 : Int) < (OptionsPerQuestion : Int) by decide⟩,
    Distribution_valid (fun _ => 0)
      (fun _ => ⟨le_refl _, show (0 : Int) < (OptionsPerQuestion : Int) by decide⟩)⟩

/-! ## Valid and Sum -/

/-- C17, counterexample. The entries of `{-1,26,25,50}` sum to `ExamLength`, so
`d.Sum() == ExamLength`, but `Valid` returns false at the negative entry. -/
theorem Valid_ne_Sum_counterexample :
    Distribution.Sum ![-1, 26, 25, 50] = (ExamLength : Int) ∧
      Distribution.Valid ![-1, 26, 25, 50] = false := by
  decide

/-- C17, amended. For every distribution `d`, `d.Valid()` returns true if and only if no
entry of `d` is negative and `d.Sum() == ExamLength`. -/
theorem Valid_eq_nonneg_and_Sum (d : Distribution) :
    Distribution.Valid d = true ↔
      (∀ k, 0 ≤ d k) ∧ Distribution.Sum d = (ExamLength : Int) := by
  have hall : (∀ k, 0 ≤ d k) ↔ (0 ≤ d 0 ∧ 0 ≤ d 1 ∧ 0 ≤ d 2 ∧ 0 ≤ d 3) := by
    constructor
    · intro h; exact ⟨h 0, h 1, h 2, h 3⟩
    · rintro ⟨h0, h1, h2, h3⟩ k
      have hk : k = 0 ∨ k = 1 ∨ k = 2 ∨ k = 3 := by revert k; decide
      rcases hk with rfl | rfl | rfl | rfl <;> assumption
  rw [Valid_unfold, Sum_unfold, hall]
  simp only [Distribution.validLoop]
  split_ifs with h0 h1 h2 h3
  · simp; omega
  · simp; omega
  · simp; omega
  · simp; omega
  · simp only [beq_iff_eq]
    constructor
    · intro h; exact ⟨⟨by omega, by omega, by omega, by omega⟩, h⟩
    · intro h; exact h.2

/-! ## The intermediate sequence -/

theorem prefixSum_zero (d : Distribution) : prefixSum d 0 = d 0 := by
  have h1 : ¬ ((1 : Fin OptionsPerQuestion) ≤ 0) := by decide
  have h2 : ¬ ((2 : Fin OptionsPerQuestion) ≤ 0) := by decide
  have h3 : ¬ ((3 : Fin OptionsPerQuestion) ≤ 0) := by decide
  unfold prefixSum
  rw [Fin.sum_univ_four, if_pos (le_refl _), if_neg h1, if_neg h2, if_neg h3]
  ring

theorem prefixSum_one (d : Distribution) : prefixSum d 1 = d 0 + d 1 := by
  have h0 : (0 : Fin OptionsPerQuestion) ≤ 1 := by decide
  have h2 : ¬ ((2 : Fin OptionsPerQuestion) ≤ 1) := by decide
  have h3 : ¬ ((3 : Fin OptionsPerQuestion) ≤ 1) := by decide
  unfold prefixSum
  rw [Fin.sum_univ_four, if_pos h0, if_pos (le_refl _), if_neg h2, if_neg h3]
  ring

theorem prefixSum_two (d : Distribution) : prefixSum d 2 = d 0 + d 1 + d 2 := by
  have h0 : (0 : Fin OptionsPerQuestion) ≤ 2 := by decide
  have h1 : (1 : Fin OptionsPerQuestion) ≤ 2 := by decide
  have h3 : ¬ ((3 : Fin OptionsPerQuestion) ≤ 2) := by decide
  unfold prefixSum
  rw [Fin.sum_univ_four, if_pos h0, if_pos h1, if_pos (le_refl _), if_neg h3]
  ring

theorem prefixSum_three (d : Distribution) : prefixSum d 3 = d 0 + d 1 + d 2 + d 3 := by
  have h0 : (0 : Fin OptionsPerQuestion) ≤ 3 := by decide
  have h1 : (1 : Fin OptionsPerQuestion) ≤ 3 := by decide
  have h2 : (2 : Fin OptionsPerQuestion) ≤ 3 := by decide
  unfold prefixSum
  rw [Fin.sum_univ_four, if_pos h0, if_pos h1, if_pos h2, if_pos (le_refl _)]

/-- Position `p` of the sorted answers of a valid distribution holds the least option `k`
with `d[0] + ... + d[k] > p`. -/
theorem sortedAnswers_least (d : Distribution) (hd : Distribution.IsValid d)
    (p : Fin ExamLength) :
    (p.val : Int) < prefixSum d (sortedAnswers d p) ∧
      ∀ k, k < sortedAnswers d p → prefixSum d k ≤ (p.val : Int) := by
  obtain ⟨⟨p0, p1, p2, p3⟩, hs⟩ := (isValid_iff d).mp hd
  have hp : (p.val : Int) < 100 := by exact_mod_cast p.isLt
  have hk : ∀ k : Fin OptionsPerQuestion, k = 0 ∨ k = 1 ∨ k = 2 ∨ k = 3 := by decide
  unfold sortedAnswers
  split_ifs with h0 h1 h2
  · refine ⟨by rw [prefixSum_zero]; exact h0, fun k hlt => ?_⟩
    rcases hk k with rfl | rfl | rfl | rfl <;> exact absurd hlt (by decide)
  · refine ⟨by rw [prefixSum_one]; exact h1, fun k hlt => ?_⟩
    rcases hk k with rfl | rfl | rfl | rfl
    · rw [prefixSum_zero]; omega
    all_goals exact absurd hlt (by decide)
  · refine ⟨by rw [prefixSum_two]; exact h2, fun k hlt => ?_⟩
    rcases hk k with rfl | rfl | rfl | rfl
    · rw [prefixSum_zero]; omega
    · rw [prefixSum_one]; omega
    all_goals exact absurd hlt (by decide)
  · refine ⟨by rw [prefixSum_three]; omega, fun k hlt => ?_⟩
    rcases hk k with rfl | rfl | rfl | rfl
    · rw [prefixSum_zero]; omega
    · rw [prefixSum_one]; omega
    · rw [prefixSum_two]; omega
    · exact absurd hlt (by decide)

/-- The sorted answers of a distribution without negative entries do not decrease. -/
theorem sortedAnswers_mono (d : Distribution) (hd : ∀ k, 0 ≤ d k) (p q : Fin ExamLength)
    (hpq : p ≤ q) : sortedAnswers d p ≤ sortedAnswers d q := by
  have h0 := hd 0
  have h1 := hd 1
  have h2 := hd 2
  have hle : (p.val : Int) ≤ (q.val : Int) := by exact_mod_cast hpq
  unfold sortedAnswers
  split_ifs <;> first | decide | omega

/-- C18. For every valid distribution `d` and every permutation `perm` of the positions,
`RandomExam(d)` is the scatter of the sorted answer sequence: the fill loop is left with a
sequence `tmp` that is non-decreasing and holds exactly `d[k]` copies of every option `k`
(`tmp[i]` is the least `k` with `d[0]+...+d[k] > i`), and the returned exam `dest` has
`dest[perm[i]] = tmp[i]` for every position `i`. -/
theorem RandomExam_scatter_sorted (perm : Equiv.Perm (Fin ExamLength)) (d : Distribution)
    (hd : Distribution.IsValid d) :
    ∃ (s : FillState) (dest : Exam),
      fillLoop fillFuel (fillInit d) = FillResult.finished s ∧
      RandomExam perm d = some dest ∧
      (∀ i j, i ≤ j → s.tmp i ≤ s.tmp j) ∧
      (∀ k : Fin OptionsPerQuestion,
        ((Finset.univ.filter (fun i => s.tmp i = (k.val : Int))).card : Int) = d k) ∧
      (∀ i, ∃ k : Fin OptionsPerQuestion, s.tmp i = (k.val : Int) ∧
        (i.val : Int) < prefixSum d k ∧ ∀ j, j < k → prefixSum d j ≤ (i.val : Int)) ∧
      ∀ i, dest (perm i) = s.tmp i := by
  obtain ⟨hfill, hre⟩ := RandomExam_of_nonneg perm d hd.1 (le_of_eq hd.2)
  have hlt : ∀ p : Fin ExamLength, (p.val : Int) < d 0 + d 1 + d 2 + d 3 := by
    intro p
    rw [hd.2]
    exact_mod_cast p.isLt
  refine ⟨_, _, hfill, RandomExam_of_isValid perm d hd, ?_, ?_, ?_, ?_⟩
  · intro i j hij
    simp only [if_pos (hlt i), if_pos (hlt j)]
    have := sortedAnswers_mono d hd.1 i j hij
    exact_mod_cast this
  · intro k
    rw [← card_sortedAnswers d hd k]
    congr 2
    ext i
    simp only [Finset.mem_filter, Finset.mem_univ, true_and, if_pos (hlt i)]
    constructor
    · intro h
      exact Fin.ext (by exact_mod_cast h)
    · intro h
      rw [h]
  · intro i
    exact ⟨sortedAnswers d i, by simp only [if_pos (hlt i)], sortedAnswers_least d hd i⟩
  · intro i
    simp only [Equiv.symm_apply_apply, if_pos (hlt i)]

/-- Witness of `RandomExam_scatter_sorted`: `{40,25,25,10}` and the exchange of the first
and the last position. -/
theorem RandomExam_scatter_sorted_witness :
    Distribution.IsValid ![40, 25, 25, 10] ∧
      ∃ (s : FillState) (dest : Exam),
        fillLoop fillFuel (fillInit ![40, 25, 25, 10]) = FillResult.finished s ∧
        RandomExam (Equiv.swap 0 99) ![40, 25, 25, 10] = some dest ∧
        (∀ i j, i ≤ j → s.tmp i ≤ s.tmp j) ∧
        (∀ k : Fin OptionsPerQuestion,
          ((Finset.univ.filter (fun i => s.tmp i = (k.val : Int))).card : Int) =
            (![40, 25, 25, 10] : Distribution) k) ∧
        (∀ i, ∃ k : Fin OptionsPerQuestion, s.tmp i = (k.val : Int) ∧
          (i.val : Int) < prefixSum ![40, 25, 25, 10] k ∧
          ∀ j, j < k → prefixSum ![40, 25, 25, 10] j ≤ (i.val : Int)) ∧
        ∀ i, dest ((Equiv.swap 0 99 : Equiv.Perm (Fin ExamLength)) i) = s.tmp i :=
  ⟨by decide, RandomExam_scatter_sorted (Equiv.swap 0 99) ![40, 25, 25, 10] (by decide)⟩

/-! ## Counting the turns of the fill loop -/

/-- A turn that does not stop the loop is an advance turn, which increments `a`, or an
emit turn, which increments `i`. -/
theorem fillStep_running {s s1 : FillState} (h : fillStep s = FillResult.running s1) :
    (turnOf s = some Turn.advance ∧ s1.a = s.a + 1 ∧ s1.i = s.i) ∨
      (turnOf s = some Turn.emit ∧ s1.a = s.a ∧ s1.i = s.i + 1 ∧ s.i < ExamLength) := by
  unfold fillStep at h
  unfold turnOf
  split_ifs at h ⊢ with h1 h2 h3
  · left
    simp only [FillResult.running.injEq] at h
    subst h
    exact ⟨rfl, rfl, rfl⟩
  · right
    simp only [FillResult.running.injEq] at h
    subst h
    exact ⟨rfl, rfl, rfl, h3⟩

/-- The turns taken while the loop runs: as many as were allowed, the emit turns among
them are the increments of `i` and the advance turns the increments of `a`. -/
theorem fillTurns_running (n : Nat) (s s1 : FillState)
    (h : fillLoop n s = FillResult.running s1) :
    (fillTurns n s).length = n ∧
      (fillTurns n s).count Turn.emit + s.i = s1.i ∧
      (fillTurns n s).count Turn.advance + s.a = s1.a ∧
      ∀ m, fillTurns (n + m) s = fillTurns n s ++ fillTurns m s1 := by
  induction n generalizing s with
  | zero =>
    simp only [fillLoop, FillResult.running.injEq] at h
    subst h
    simp [fillTurns]
  | succ n ih =>
    simp only [fillLoop] at h
    cases hs : fillStep s with
    | running s2 =>
      rw [hs] at h
      obtain ⟨hlen, hemit, hadv, happ⟩ := ih s2 h
      have happ1 : ∀ m, fillTurns (n + 1 + m) s = fillTurns (n + 1) s ++ fillTurns m s1 := by
        intro m
        rw [Nat.add_right_comm]
        rcases fillStep_running hs with ⟨ht, _, _⟩ | ⟨ht, _, _, _⟩ <;>
          simp only [fillTurns, ht, hs, happ m, List.cons_append]
      rcases fillStep_running hs with ⟨ht, ha, hi⟩ | ⟨ht, ha, hi, _⟩
      · refine ⟨?_, ?_, ?_, happ1⟩
        · simp only [fillTurns, ht, hs, List.length_cons, hlen]
        · simp only [fillTurns, ht, hs]
          rw [List.count_cons_of_ne (by decide)]
          omega
        · simp only [fillTurns, ht, hs]
          rw [List.count_cons_self]
          omega
      · refine ⟨?_, ?_, ?_, happ1⟩
        · simp only [fillTurns, ht, hs, List.length_cons, hlen]
        · simp only [fillTurns, ht, hs]
          rw [List.count_cons_self]
          omega
        · simp only [fillTurns, ht, hs]
          rw [List.count_cons_of_ne (by decide)]
          omega
    | finished s2 => rw [hs] at h; cases h
    | indexOutOfRange => rw [hs] at h; cases h

/-- The exit turn leaves the state as it is: a loop that was left had been running up to
the state it was left in. -/
theorem fillLoop_finished_running (n : Nat) (s s1 : FillState)
    (h : fillLoop n s = FillResult.finished s1) :
    ∃ m, m < n ∧ fillLoop m s = FillResult.running s1 := by
  induction n generalizing s with
  | zero => simp [fillLoop] at h
  | succ n ih =>
    simp only [fillLoop] at h
    cases hs : fillStep s with
    | running s2 =>
      rw [hs] at h
      obtain ⟨m, hm, hrun⟩ := ih s2 h
      refine ⟨m + 1, by omega, ?_⟩
      simp only [fillLoop, hs, hrun]
    | finished s2 =>
      rw [hs] at h
      simp only [FillResult.finished.injEq] at h
      subst h
      have hs2 : s2 = s := by
        unfold fillStep at hs
        split_ifs at hs with h1 h2 h3
        simp only [FillResult.finished.injEq] at hs
        exact hs.symm
      subst hs2
      exact ⟨0, Nat.succ_pos _, rfl⟩
    | indexOutOfRange => rw [hs] at h; cases h

/-- The turns of the loop end with the turn that stops it. -/
theorem fillTurns_stopped (m : Nat) (s : FillState) (h : ∀ s1, fillStep s ≠ FillResult.running s1) :
    fillTurns m s = [] := by
  cases m with
  | zero => rfl
  | succ m =>
    simp only [fillTurns]
    cases hs : fillStep s with
    | running s2 => exact absurd hs (h s2)
    | finished s2 => cases turnOf s <;> rfl
    | indexOutOfRange => cases turnOf s <;> rfl

theorem turns_length (l : List Turn) :
    l.length = l.count Turn.emit + l.count Turn.advance := by
  induction l with
  | nil => rfl
  | cons t l ih =>
    cases t
    · rw [List.length_cons, List.count_cons_of_ne (by decide), List.count_cons_self, ih]
      omega
    · rw [List.length_cons, List.count_cons_self, List.count_cons_of_ne (by decide), ih]
      omega

/-- C19. Under the precondition that `d` is valid, the fill loop of `RandomExam(d)`
terminates: it is left after exactly `ExamLength` emit turns and `OptionsPerQuestion`
advance turns, with `a = OptionsPerQuestion`, `i = ExamLength` and every entry of the
budget 0; no write `tmp[i]` is out of range (every emit turn has `i < ExamLength`, the
loop is never stopped by an index out of range). -/
theorem fillLoop_terminates (d : Distribution) (hd : Distribution.IsValid d) :
    ∃ s, fillLoop fillFuel (fillInit d) = FillResult.finished s ∧
      (∀ n, fillFuel ≤ n → fillLoop n (fillInit d) = FillResult.finished s) ∧
      s.a = OptionsPerQuestion ∧ s.i = ExamLength ∧ (∀ k, s.d k = 0) ∧
      (fillTurns fillFuel (fillInit d)).count Turn.emit = ExamLength ∧
      (fillTurns fillFuel (fillInit d)).count Turn.advance = OptionsPerQuestion ∧
      (fillTurns fillFuel (fillInit d)).length = ExamLength + OptionsPerQuestion ∧
      ∀ n, fillLoop n (fillInit d) ≠ FillResult.indexOutOfRange := by
  obtain ⟨hfill, _⟩ := RandomExam_of_nonneg (Equiv.refl _) d hd.1 (le_of_eq hd.2)
  have hsum : (d 0 + d 1 + d 2 + d 3).toNat = ExamLength := by
    rw [hd.2]; rfl
  rw [hsum] at hfill
  obtain ⟨m, hm, hrun⟩ := fillLoop_finished_running _ _ _ hfill
  obtain ⟨hlen, hemit, hadv, happ⟩ := fillTurns_running m _ _ hrun
  have hi0 : (fillInit d).i = 0 := rfl
  have ha0 : (fillInit d).a = 0 := rfl
  simp only [hi0, ha0, Nat.add_zero] at hemit hadv
  have hstop : ∀ k, fillTurns k
      (⟨OptionsPerQuestion, ExamLength, fun _ => 0, fun p =>
        if (p.val : Int) < d 0 + d 1 + d 2 + d 3 then ((sortedAnswers d p).val : Int)
        else 0⟩ : FillState) = [] := by
    intro k
    apply fillTurns_stopped
    intro s1
    simp [fillStep]
  have hturns : fillTurns fillFuel (fillInit d) = fillTurns m (fillInit d) := by
    have := happ (fillFuel - m)
    rw [hstop, List.append_nil, Nat.add_sub_cancel' (le_of_lt hm)] at this
    exact this
  have hm104 : m = ExamLength + OptionsPerQuestion := by
    have h1 := turns_length (fillTurns m (fillInit d))
    have h2 : (fillTurns m (fillInit d)).count Turn.emit = 100 := hemit
    have h3 : (fillTurns m (fillInit d)).count Turn.advance = 4 := hadv
    show m = 100 + 4
    omega
  refine ⟨_, hfill, ?_, rfl, rfl, fun _ => rfl, ?_, ?_, ?_, ?_⟩
  · intro n hn
    have := fillLoop_finished (n - fillFuel) hfill
    rw [Nat.add_sub_cancel' hn] at this
    exact this
  · rw [hturns]; exact hemit
  · rw [hturns]; exact hadv
  · rw [hturns, hlen, hm104]
  · intro n hpanic
    rcases Nat.le_total n fillFuel with hle | hle
    · have := fillLoop_indexOutOfRange (fillFuel - n) hpanic
      rw [Nat.add_sub_cancel' hle, hfill] at this
      cases this
    · have := fillLoop_finished (n - fillFuel) hfill
      rw [Nat.add_sub_cancel' hle, hpanic] at this
      cases this

/-- Witness of `fillLoop_terminates`: the distribution `{54,25,11,10}`. -/
theorem fillLoop_terminates_witness :
    Distribution.IsValid ![54, 25, 11, 10] ∧
      ∃ s, fillLoop fillFuel (fillInit ![54, 25, 11, 10]) = FillResult.finished s ∧
        (∀ n, fillFuel ≤ n → fillLoop n (fillInit ![54, 25, 11, 10]) = FillResult.finished s) ∧
        s.a = OptionsPerQuestion ∧ s.i = ExamLength ∧ (∀ k, s.d k = 0) ∧
        (fillTurns fillFuel (fillInit ![54, 25, 11, 10])).count Turn.emit = ExamLength ∧
        (fillTurns fillFuel (fillInit ![54, 25, 11, 10])).count Turn.advance =
          OptionsPerQuestion ∧
        (fillTurns fillFuel (fillInit ![54, 25, 11, 10])).length =
          ExamLength + OptionsPerQuestion ∧
        ∀ n, fillLoop n (fillInit ![54, 25, 11, 10]) ≠ FillResult.indexOutOfRange :=
  ⟨by decide, fillLoop_terminates ![54, 25, 11, 10] (by decide)⟩

/-! ## The sums inside EliminateAndScale -/

/-- Three scaled counts lose less than one unit each. -/
theorem scaled_sum_ge (x0 x1 x2 S : Int) (hS : 0 < S) (hsum : x0 + x1 + x2 = S) :
    98 ≤ x0 * 100 / S + x1 * 100 / S + x2 * 100 / S := by
  have h0 := Int.lt_ediv_add_one_mul_self (x0 * 100) hS
  have h1 := Int.lt_ediv_add_one_mul_self (x1 * 100) hS
  have h2 := Int.lt_ediv_add_one_mul_self (x2 * 100) hS
  have h : 100 * S < (x0 * 100 / S + x1 * 100 / S + x2 * 100 / S + 3) * S := by
    have e1 : (x0 * 100 / S + x1 * 100 / S + x2 * 100 / S + 3) * S =
        (x0 * 100 / S + 1) * S + (x1 * 100 / S + 1) * S + (x2 * 100 / S + 1) * S := by ring
    have e2 : 100 * S = x0 * 100 + x1 * 100 + x2 * 100 := by rw [← hsum]; ring
    rw [e1, e2]
    omega
  have := lt_of_mul_lt_mul_right h (le_of_lt hS)
  omega

/-- C20. For every valid distribution `d`, inside `EliminateAndScale` the sum `S` left
after zeroing the least frequent entry satisfies `75 <= S <= ExamLength`, so the scaling
divisor is never zero, and the rounding shortfall
`ExamLength - sum_k floor(d[k] * ExamLength / S)` that is added to slot 0 is 0, 1 or 2. -/
theorem EliminateAndScale_sums (perm : Equiv.Perm (Fin ExamLength)) (d : Distribution)
    (hd : Distribution.IsValid d) :
    ∃ (L : Fin OptionsPerQuestion) (d1 d2 : Distribution),
      Rank d ⟨OptionsPerQuestion - 1, by decide⟩ = (L.val : Int) ∧
      Distribution.set d (Rank d ⟨OptionsPerQuestion - 1, by decide⟩) 0 = some d1 ∧
      75 ≤ Distribution.Sum d1 ∧ Distribution.Sum d1 ≤ (ExamLength : Int) ∧
      (List.finRange OptionsPerQuestion).foldlM
        (fun (acc : Distribution) i =>
          (scaleEntry (acc i) (Distribution.Sum d1)).map (Function.update acc i)) d1 = some d2 ∧
      (∀ k, d2 k = d1 k * (ExamLength : Int) / Distribution.Sum d1) ∧
      ((ExamLength : Int) - Distribution.Sum d2 = 0 ∨
        (ExamLength : Int) - Distribution.Sum d2 = 1 ∨
        (ExamLength : Int) - Distribution.Sum d2 = 2) ∧
      EliminateAndScale perm d = RandomExam perm
        (Function.update d2 0 (d2 0 + ((ExamLength : Int) - Distribution.Sum d2))) := by
  obtain ⟨L, hL, hmin⟩ := Rank_last d
  obtain ⟨⟨p0, p1, p2, p3⟩, hs⟩ := (isValid_iff d).mp hd
  have hnn : ∀ k, 0 ≤ d k := hd.1
  have hle : ∀ k, d k ≤ 100 := by
    intro k
    have hk : k = 0 ∨ k = 1 ∨ k = 2 ∨ k = 3 := by revert k; decide
    rcases hk with rfl | rfl | rfl | rfl <;> omega
  have hL25 : d L ≤ 25 := by
    have h0 := hmin 0
    have h1 := hmin 1
    have h2 := hmin 2
    have h3 := hmin 3
    omega
  have hL0 := hnn L
  have h1 : ∀ k, 0 ≤ Function.update d L 0 k ∧ Function.update d L 0 k ≤ 100 := by
    intro k
    by_cases hk : k = L
    · subst hk; simp
    · rw [Function.update_noteq hk]; exact ⟨hnn k, hle k⟩
  have hsum1 : Distribution.Sum (Function.update d L 0) = d 0 + d 1 + d 2 + d 3 - d L := by
    rw [Sum_of_small _ (fun k => ⟨(h1 k).1, by have := (h1 k).2; omega⟩), sum_update_zero]
  have hS : 0 < Distribution.Sum (Function.update d L 0) ∧
      Distribution.Sum (Function.update d L 0) ≤ 100 := by
    rw [hsum1]; omega
  have hq0 : ∀ k, 0 ≤ Function.update d L 0 k * 100 / Distribution.Sum (Function.update d L 0) :=
    fun k => Int.ediv_nonneg (mul_nonneg (h1 k).1 (by decide)) (le_of_lt hS.1)
  have hsumx := sum_update_zero d L
  rw [← hsum1] at hsumx
  have hqs := scaled_sum_le (Function.update d L 0 0) (Function.update d L 0 1)
    (Function.update d L 0 2) (Function.update d L 0 3) _ hS.1 hsumx
  have hq0' := hq0 0
  have hq1' := hq0 1
  have hq2' := hq0 2
  have hq3' := hq0 3
  have hsum2 : Distribution.Sum (fun k => Function.update d L 0 k * (ExamLength : Int) /
      Distribution.Sum (Function.update d L 0)) =
      Function.update d L 0 0 * 100 / Distribution.Sum (Function.update d L 0) +
      Function.update d L 0 1 * 100 / Distribution.Sum (Function.update d L 0) +
      Function.update d L 0 2 * 100 / Distribution.Sum (Function.update d L 0) +
      Function.update d L 0 3 * 100 / Distribution.Sum (Function.update d L 0) := by
    rw [Sum_of_small]
    · simp only [ExamLength, Nat.cast_ofNat]
    · intro k
      have hk : k = 0 ∨ k = 1 ∨ k = 2 ∨ k = 3 := by revert k; decide
      simp only [ExamLength, Nat.cast_ofNat]
      rcases hk with rfl | rfl | rfl | rfl <;> exact ⟨by assumption, by omega⟩
  -- the lower bound: the eliminated entry scales to 0, the other three lose less than 1
  have hge : 98 ≤ Function.update d L 0 0 * 100 / Distribution.Sum (Function.update d L 0) +
      Function.update d L 0 1 * 100 / Distribution.Sum (Function.update d L 0) +
      Function.update d L 0 2 * 100 / Distribution.Sum (Function.update d L 0) +
      Function.update d L 0 3 * 100 / Distribution.Sum (Function.update d L 0) := by
    have hall : ∀ k : Fin OptionsPerQuestion, k = 0 ∨ k = 1 ∨ k = 2 ∨ k = 3 := by decide
    have hLk := hall L
    have hz : Function.update d L 0 L = 0 := Function.update_same _ _ _
    rcases hLk with rfl | rfl | rfl | rfl
    · have := scaled_sum_ge (Function.update d 0 0 1) (Function.update d 0 0 2)
        (Function.update d 0 0 3) _ hS.1 (by rw [hz] at hsumx; omega)
      rw [hz, Int.zero_mul, Int.zero_ediv]
      omega
    · have := scaled_sum_ge (Function.update d 1 0 0) (Function.update d 1 0 2)
        (Function.update d 1 0 3) _ hS.1 (by rw [hz] at hsumx; omega)
      rw [hz, Int.zero_mul, Int.zero_ediv]
      omega
    · have := scaled_sum_ge (Function.update d 2 0 0) (Function.update d 2 0 1)
        (Function.update d 2 0 3) _ hS.1 (by rw [hz] at hsumx; omega)
      rw [hz, Int.zero_mul, Int.zero_ediv]
      omega
    · have := scaled_sum_ge (Function.update d 3 0 0) (Function.update d 3 0 1)
        (Function.update d 3 0 2) _ hS.1 (by rw [hz] at hsumx; omega)
      rw [hz, Int.zero_mul, Int.zero_ediv]
      omega
  have hloop := scale_loop (Function.update d L 0) _ h1 hS
  refine ⟨L, Function.update d L 0, _, hL, by rw [hL, set_of_option], ?_, hS.2, hloop,
    fun _ => rfl, ?_, ?_⟩
  · rw [hsum1]; omega
  · rw [hsum2]
    simp only [ExamLength, Nat.cast_ofNat]
    omega
  · unfold EliminateAndScale
    simp only [Option.bind_eq_bind]
    rw [hL, set_of_option, Option.some_bind, hloop, Option.some_bind, hsum2]
    simp only [ExamLength, Nat.cast_ofNat]
    refine congrArg (RandomExam perm) (congrArg (Function.update _ 0) ?_)
    unfold goAdd goSub wrapInt
    omega

/-- Witness of `EliminateAndScale_sums`: `{54,20,13,13}` and the identity permutation. -/
theorem EliminateAndScale_sums_witness :
    Distribution.IsValid ![54, 20, 13, 13] ∧
      ∃ (L : Fin OptionsPerQuestion) (d1 d2 : Distribution),
        Rank ![54, 20, 13, 13] ⟨OptionsPerQuestion - 1, by decide⟩ = (L.val : Int) ∧
        Distribution.set ![54, 20, 13, 13]
          (Rank ![54, 20, 13, 13] ⟨OptionsPerQuestion - 1, by decide⟩) 0 = some d1 ∧
        75 ≤ Distribution.Sum d1 ∧ Distribution.Sum d1 ≤ (ExamLength : Int) ∧
        (List.finRange OptionsPerQuestion).foldlM
          (fun (acc : Distribution) i =>
            (scaleEntry (acc i) (Distribution.Sum d1)).map (Function.update acc i)) d1 =
              some d2 ∧
        (∀ k, d2 k = d1 k * (ExamLength : Int) / Distribution.Sum d1) ∧
        ((ExamLength : Int) - Distribution.Sum d2 = 0 ∨
          (ExamLength : Int) - Distribution.Sum d2 = 1 ∨
          (ExamLength : Int) - Distribution.Sum d2 = 2) ∧
        EliminateAndScale (Equiv.refl _) ![54, 20, 13, 13] = RandomExam (Equiv.refl _)
          (Function.update d2 0 (d2 0 + ((ExamLength : Int) - Distribution.Sum d2))) :=
  ⟨by decide, EliminateAndScale_sums (Equiv.refl _) ![54, 20, 13, 13] (by decide)⟩

/-! ## AssessStrategy -/

theorem goAdd_wrapInt (x y : Int) : goAdd (wrapInt x) y = wrapInt (x + y) := by
  unfold goAdd wrapInt
  omega

/-- The totals of `n` perfect trials, in Go arithmetic. -/
theorem assessLoop_perfect (s : Option Strategy) (rand : RandSource) (d : Distribution)
    (h : PerfectTrials s rand d) (n : Nat) (P T : Int) (k0 : Nat) :
    ∃ k, assessLoop s rand d n { passes := wrapInt P, totalGrade := wrapInt T, draws := k0 } =
      some { passes := wrapInt (P + n), totalGrade := wrapInt (T + 100 * n), draws := k } := by
  induction n generalizing P T k0 with
  | zero => exact ⟨k0, by simp [assessLoop]⟩
  | succ n ih =>
    obtain ⟨k1, h1⟩ := h { passes := wrapInt P, totalGrade := wrapInt T, draws := k0 }
    obtain ⟨k, h2⟩ := ih (P + 1) (T + 100) k1
    refine ⟨k, ?_⟩
    simp only [assessLoop, h1, goAdd_wrapInt, h2]
    have e1 : P + 1 + (n : Int) = P + ((n + 1 : Nat) : Int) := by push_cast; ring
    have e2 : T + 100 + 100 * (n : Int) = T + 100 * ((n + 1 : Nat) : Int) := by push_cast; ring
    rw [e1, e2]

/-- The totals and the assessment of `iterations` perfect trials, for an iteration count
that keeps the totals within the integers `float64` holds exactly. -/
theorem AssessStrategy_perfect (s : Option Strategy) (rand : RandSource) (d : Distribution)
    (h : PerfectTrials s rand d) (iterations : Int) (hpos : 0 < iterations)
    (hsmall : 100 * iterations < 9007199254740992) :
    (∃ k, assessLoop s rand d iterations.toNat { passes := 0, totalGrade := 0, draws := 0 } =
        some { passes := iterations, totalGrade := 100 * iterations, draws := k }) ∧
      AssessStrategy s rand d iterations =
        some { AverageGrade := FloatValue.nearest 100, PassProbability := FloatValue.nearest 1 } := by
  obtain ⟨k, hk⟩ := assessLoop_perfect s rand d h iterations.toNat 0 0 0
  have hn : ((iterations.toNat : Nat) : Int) = iterations := Int.toNat_of_nonneg (le_of_lt hpos)
  have w0 : wrapInt 0 = 0 := by decide
  have w1 : wrapInt (0 + iterations) = iterations := by unfold wrapInt; omega
  have w2 : wrapInt (0 + 100 * iterations) = 100 * iterations := by unfold wrapInt; omega
  rw [hn, w0, w1, w2] at hk
  refine ⟨⟨k, hk⟩, ?_⟩
  unfold AssessStrategy
  rw [hk]
  have hne : (iterations : Rat) ≠ 0 := by exact_mod_cast (ne_of_gt hpos)
  have g1 : ¬ (9007199254740992 ≤ |100 * iterations| ∨ 9007199254740992 ≤ |iterations|) := by
    rw [abs_of_pos hpos, abs_of_pos (by omega)]
    omega
  have g2 : ¬ (9007199254740992 ≤ |iterations| ∨ 9007199254740992 ≤ |iterations|) := by
    rw [abs_of_pos hpos]
    omega
  have hne0 : iterations ≠ 0 := ne_of_gt hpos
  simp only [floatDiv, if_neg g1, if_neg g2, if_neg hne0]
  congr 2
  · congr 1
    push_cast
    field_simp
  · congr 1
    field_simp

/-- With the strategy `nil` the guess is the exam just drawn: every trial on a valid
distribution is perfect. -/
theorem perfectTrials_nil (rand : RandSource) (d : Distribution)
    (hd : Distribution.IsValid d) : PerfectTrials none rand d := by
  intro st
  refine ⟨st.draws + 1, ?_⟩
  unfold assessTrial
  rw [RandomExam_of_isValid _ d hd]
  simp only [Check_self]
  rfl

/-- A trial in which the exam drawn and the guess are the same exam is perfect. -/
theorem assessTrial_same (f : Strategy) (rand : RandSource) (d : Distribution)
    (st : AssessState) (e : Exam) (k : Nat)
    (h1 : RandomExam (rand st.draws) d = some e) (h2 : f rand (st.draws + 1) d = some (e, k)) :
    assessTrial (some f) rand d st =
      some { passes := goAdd st.passes 1, totalGrade := goAdd st.totalGrade 100, draws := k } := by
  unfold assessTrial
  rw [h1]
  simp only [h2, Check_self]
  rfl

theorem RandomExam_all_zero (perm : Equiv.Perm (Fin ExamLength)) :
    RandomExam perm ![100, 0, 0, 0] = some (fun _ => 0) := by
  rw [RandomExam_of_isValid perm _ (by decide)]
  congr 1
  funext j
  have hj : ((perm.symm j).val : Int) < 100 := by exact_mod_cast (perm.symm j).isLt
  have : sortedAnswers ![100, 0, 0, 0] (perm.symm j) = 0 := by
    unfold sortedAnswers
    rw [if_pos (by simp)]
  rw [this]
  rfl

theorem GuessCommon_all_zero : GuessCommon ![100, 0, 0, 0] = some (fun _ => 0) := by
  rw [GuessCommon_eq]
  have hr : Rank ![100, 0, 0, 0] 0 = 0 := by decide
  rw [hr]
  congr 1
  exact Function.update_eq_self 0 (fun _ => (0 : Answer))

theorem EliminateAndScale_all_zero (perm : Equiv.Perm (Fin ExamLength)) :
    EliminateAndScale perm ![100, 0, 0, 0] = some (fun _ => 0) := by
  obtain ⟨L, hL, _, he, _⟩ := EliminateAndScale_of_isValid perm ![100, 0, 0, 0] (by decide)
  have hr : Rank ![100, 0, 0, 0] ⟨OptionsPerQuestion - 1, by decide⟩ = 3 := by decide
  have hL3 : L = 3 := by
    rw [hr] at hL
    exact Fin.ext (by exact_mod_cast hL.symm)
  subst hL3
  have hc : scaledDistribution ![100, 0, 0, 0] 3 = ![100, 0, 0, 0] := by decide
  rw [he, hc]
  exact RandomExam_all_zero perm

/-- On `{100,0,0,0}` every trial of every strategy of the table in `main` is perfect. -/
theorem perfectTrials_all_zero (rand : RandSource) (s : Option Strategy)
    (hs : s = none ∨ s = some RandomExamStrategy ∨ s = some GuessCommonStrategy ∨
      s = some EliminateAndScaleStrategy) :
    PerfectTrials s rand ![100, 0, 0, 0] := by
  rcases hs with rfl | rfl | rfl | rfl
  · exact perfectTrials_nil rand _ (by decide)
  · intro st
    exact ⟨_, assessTrial_same _ rand _ st _ _ (RandomExam_all_zero _)
      (by simp only [RandomExamStrategy, RandomExam_all_zero, Option.map_some']; rfl)⟩
  · intro st
    exact ⟨_, assessTrial_same _ rand _ st _ _ (RandomExam_all_zero _)
      (by simp only [GuessCommonStrategy, GuessCommon_all_zero, Option.map_some']; rfl)⟩
  · intro st
    exact ⟨_, assessTrial_same _ rand _ st _ _ (RandomExam_all_zero _)
      (by simp only [EliminateAndScaleStrategy, EliminateAndScale_all_zero, Option.map_some']; rfl)⟩

/-- C14, counterexample. With `N = 0` the loop of `AssessStrategy(nil, d, N)` does not run,
`totalGrade` and `passes` stay 0 and both results are the quotient `0.0 / 0.0`: not a
number, neither 100.0 nor 1.0. -/
theorem AssessStrategy_nil_zero_counterexample :
    Distribution.IsValid ![25, 25, 25, 25] ∧
      ∀ rand, AssessStrategy none rand ![25, 25, 25, 25] 0 =
        some { AverageGrade := FloatValue.nan, PassProbability := FloatValue.nan } := by
  refine ⟨by decide, fun rand => ?_⟩
  rfl

/-- C14, amended. With the strategy `nil` the guess is the exam drawn in every trial: for
every valid distribution `d`, every sequence of permutations drawn and every iteration
count `N` with `0 < N` and `100 * N < 2 ^ 53` (the totals are then integers that
`float64` holds exactly), `AssessStrategy(nil, d, N)` accumulates
`totalGrade = ExamLength * N` and `passes = N`, and `AverageGrade` is 100.0 and
`PassProbability` is 1.0. -/
theorem AssessStrategy_nil (rand : RandSource) (d : Distribution)
    (hd : Distribution.IsValid d) (N : Int) (hpos : 0 < N)
    (hsmall : 100 * N < 9007199254740992) :
    PerfectTrials none rand d ∧
      (∃ k, assessLoop none rand d N.toNat { passes := 0, totalGrade := 0, draws := 0 } =
        some { passes := N, totalGrade := (ExamLength : Int) * N, draws := k }) ∧
      AssessStrategy none rand d N =
        some { AverageGrade := FloatValue.nearest 100, PassProbability := FloatValue.nearest 1 } :=
  ⟨perfectTrials_nil rand d hd,
    AssessStrategy_perfect none rand d (perfectTrials_nil rand d hd) N hpos hsmall⟩

/-- Witness of `AssessStrategy_nil`: `{25,25,25,25}`, `NumIterations = 100000` trials and
a random source that always returns the identity. -/
theorem AssessStrategy_nil_witness :
    (Distribution.IsValid ![25, 25, 25, 25] ∧ (0 : Int) < 100000 ∧
        (100 : Int) * 100000 < 9007199254740992) ∧
      (PerfectTrials none (fun _ => Equiv.refl _) ![25, 25, 25, 25] ∧
        (∃ k, assessLoop none (fun _ => Equiv.refl _) ![25, 25, 25, 25] (100000 : Int).toNat
            { passes := 0, totalGrade := 0, draws := 0 } =
          some { passes := 100000, totalGrade := (ExamLength : Int) * 100000, draws := k }) ∧
        AssessStrategy none (fun _ => Equiv.refl _) ![25, 25, 25, 25] 100000 =
          some { AverageGrade := FloatValue.nearest 100,
                 PassProbability := FloatValue.nearest 1 }) :=
  ⟨⟨by decide, by decide, by decide⟩,
    AssessStrategy_nil (fun _ => Equiv.refl _) ![25, 25, 25, 25] (by decide) 100000 (by decide)
      (by decide)⟩

/-- C15, counterexample. For `d = {100,0,0,0}` and `iterations = 92233720368547759 > 0`
every trial of the strategy `nil` has grade 100, but the sum `100 * iterations` is
`9223372036854775900`, more than the largest Go integer: `totalGrade` wraps around and
ends as `-9223372036854775716`, not `100 * iterations`. -/
theorem AssessStrategy_overflow_counterexample :
    (0 : Int) < 92233720368547759 ∧
      (∀ rand, ∃ k, assessLoop none rand ![100, 0, 0, 0] (92233720368547759 : Int).toNat
          { passes := 0, totalGrade := 0, draws := 0 } =
        some { passes := 92233720368547759, totalGrade := -9223372036854775716, draws := k }) ∧
      (-9223372036854775716 : Int) ≠ 100 * 92233720368547759 := by
  refine ⟨by decide, fun rand => ?_, by decide⟩
  obtain ⟨k, hk⟩ := assessLoop_perfect none rand ![100, 0, 0, 0]
    (perfectTrials_nil rand _ (by decide)) (92233720368547759 : Int).toNat 0 0 0
  have hn : (((92233720368547759 : Int).toNat : Nat) : Int) = 92233720368547759 := by decide
  have w0 : wrapInt 0 = 0 := by decide
  have w1 : wrapInt (0 + 92233720368547759) = 92233720368547759 := by decide
  have w2 : wrapInt (0 + 100 * 92233720368547759) = -9223372036854775716 := by decide
  rw [hn, w0, w1, w2] at hk
  exact ⟨k, hk⟩

/-- C15, amended. For `d = {100,0,0,0}` and every permutation drawn, `RandomExam(d)`,
`GuessCommon(d)` and `EliminateAndScale(d)` each return the exam that answers every
question with option 0; hence for each of these strategies and for the strategy `nil`,
every trial of `AssessStrategy(s, d, iterations)` has grade 100, and for
`0 < iterations` with `100 * iterations < 2 ^ 53` (the totals are then integers that
`float64` holds exactly) `totalGrade = 100 * iterations`, `passes = iterations`,
`AverageGrade` is 100.0 and `PassProbability` is 1.0. -/
theorem AssessStrategy_all_zero (rand : RandSource) (s : Option Strategy)
    (hs : s = none ∨ s = some RandomExamStrategy ∨ s = some GuessCommonStrategy ∨
      s = some EliminateAndScaleStrategy)
    (iterations : Int) (hpos : 0 < iterations)
    (hsmall : 100 * iterations < 9007199254740992) :
    (∀ perm, RandomExam perm ![100, 0, 0, 0] = some (fun _ => 0) ∧
        GuessCommon ![100, 0, 0, 0] = some (fun _ => 0) ∧
        EliminateAndScale perm ![100, 0, 0, 0] = some (fun _ => 0)) ∧
      PerfectTrials s rand ![100, 0, 0, 0] ∧
      (∃ k, assessLoop s rand ![100, 0, 0, 0] iterations.toNat
          { passes := 0, totalGrade := 0, draws := 0 } =
        some { passes := iterations, totalGrade := 100 * iterations, draws := k }) ∧
      AssessStrategy s rand ![100, 0, 0, 0] iterations =
        some { AverageGrade := FloatValue.nearest 100, PassProbability := FloatValue.nearest 1 } :=
  ⟨fun perm => ⟨RandomExam_all_zero perm, GuessCommon_all_zero, EliminateAndScale_all_zero perm⟩,
    perfectTrials_all_zero rand s hs,
    AssessStrategy_perfect s rand _ (perfectTrials_all_zero rand s hs) iterations hpos hsmall⟩

/-- Witness of `AssessStrategy_all_zero`: the strategy `EliminateAndScale`,
`NumIterations = 100000` trials and a random source that always returns the identity. -/
theorem AssessStrategy_all_zero_witness :
    ((some EliminateAndScaleStrategy = none ∨
          some EliminateAndScaleStrategy = some RandomExamStrategy ∨
          some EliminateAndScaleStrategy = some GuessCommonStrategy ∨
          some EliminateAndScaleStrategy = some EliminateAndScaleStrategy) ∧
        (0 : Int) < 100000 ∧ (100 : Int) * 100000 < 9007199254740992) ∧
      ((∀ perm, RandomExam perm ![100, 0, 0, 0] = some (fun _ => 0) ∧
          GuessCommon ![100, 0, 0, 0] = some (fun _ => 0) ∧
          EliminateAndScale perm ![100, 0, 0, 0] = some (fun _ => 0)) ∧
        PerfectTrials (some EliminateAndScaleStrategy) (fun _ => Equiv.refl _)
          ![100, 0, 0, 0] ∧
        (∃ k, assessLoop (some EliminateAndScaleStrategy) (fun _ => Equiv.refl _)
            ![100, 0, 0, 0] (100000 : Int).toNat
            { passes := 0, totalGrade := 0, draws := 0 } =
          some { passes := 100000, totalGrade := 100 * 100000, draws := k }) ∧
        AssessStrategy (some EliminateAndScaleStrategy) (fun _ => Equiv.refl _)
            ![100, 0, 0, 0] 100000 =
          some { AverageGrade := FloatValue.nearest 100,
                 PassProbability := FloatValue.nearest 1 }) :=
  ⟨⟨Or.inr (Or.inr (Or.inr rfl)), by decide, by decide⟩,
    AssessStrategy_all_zero (fun _ => Equiv.refl _) (some EliminateAndScaleStrategy)
      (Or.inr (Or.inr (Or.inr rfl))) 100000 (by decide) (by decide)⟩

/-! ## The grade of GuessCommon -/

/-- On `{10,90,0,0}` the exam of `GuessCommon` agrees with a key of that distribution at
position 0 at most and at the (ten) positions the key answers with 0. -/
theorem GuessCommon_grade_le (key : Exam)
    (hkey : Exam.Distribution key = some ![10, 90, 0, 0]) :
    Exam.Check key (Function.update (fun _ => 0) 0 1) ≤ 11 := by
  obtain ⟨g, hg, hcard⟩ := options_of_Distribution key _ hkey
  have h10 : (Finset.univ.filter (fun i => g i = 0)).card = 10 := by
    have h := hcard 0
    have e : (![10, 90, 0, 0] : Distribution) 0 = 10 := rfl
    rw [e] at h
    exact_mod_cast h
  rw [Check_eq_card]
  have hsub : Finset.univ.filter (fun i => key i = (Function.update (fun _ => 0) 0 1 : Exam) i) ⊆
      insert 0 (Finset.univ.filter (fun i => g i = 0)) := by
    intro i hi
    simp only [Finset.mem_filter, Finset.mem_univ, true_and] at hi
    by_cases h0 : i = 0
    · rw [h0]; exact Finset.mem_insert_self _ _
    · rw [Function.update_noteq h0, hg] at hi
      refine Finset.mem_insert_of_mem ?_
      simp only [Finset.mem_filter, Finset.mem_univ, true_and]
      have hi2 : (((g i).val : Nat) : Int) = 0 := hi
      exact Fin.ext (by exact_mod_cast hi2)
  calc (Finset.univ.filter (fun i => key i = (Function.update (fun _ => 0) 0 1 : Exam) i)).card
      ≤ (insert 0 (Finset.univ.filter (fun i => g i = 0))).card := Finset.card_le_card hsub
    _ ≤ (Finset.univ.filter (fun i => g i = 0)).card + 1 := Finset.card_insert_le _ _
    _ = 11 := by rw [h10]

/-- On `{25,25,25,25}` the exam of `GuessCommon` answers 0 everywhere and agrees with a
key of that distribution at the 25 positions the key answers with 0. -/
theorem GuessCommon_grade_uniform (key : Exam)
    (hkey : Exam.Distribution key = some ![25, 25, 25, 25]) :
    GuessCommon ![25, 25, 25, 25] = some (fun _ => 0) ∧ Exam.Check key (fun _ => 0) = 25 := by
  constructor
  · rw [GuessCommon_eq]
    have hr : Rank ![25, 25, 25, 25] 0 = 0 := by decide
    rw [hr]
    congr 1
    exact Function.update_eq_self 0 (fun _ => (0 : Answer))
  · obtain ⟨g, hg, hcard⟩ := options_of_Distribution key _ hkey
    have h25 : (Finset.univ.filter (fun i => g i = 0)).card = 25 := by
      have h := hcard 0
      have e : (![25, 25, 25, 25] : Distribution) 0 = 25 := rfl
      rw [e] at h
      exact_mod_cast h
    rw [Check_eq_card, ← h25]
    congr 1
    ext i
    simp only [Finset.mem_filter, Finset.mem_univ, true_and, hg]
    constructor
    · intro h
      exact Fin.ext (by exact_mod_cast h)
    · intro h
      rw [h]
      rfl

/-- C16, at the failing input `{10,90,0,0}`. The most frequent option is option 1 with 90
questions, but `GuessCommon` returns the exam `[1,0,...,0]`: against the key drawn with
the identity permutation (ten times 0, then ninety times 1) its grade is 9, not 90, and
against no key of that distribution is it more than 11; on the less skewed
`{25,25,25,25}` the grade is 25 for every key. -/
theorem GuessCommon_grade_failing_input :
    Distribution.IsValid ![10, 90, 0, 0] ∧
      Distribution.get ![10, 90, 0, 0] (Rank ![10, 90, 0, 0] 0) = some 90 ∧
      (∃ key guess, RandomExam (Equiv.refl _) ![10, 90, 0, 0] = some key ∧
        Exam.Distribution key = some ![10, 90, 0, 0] ∧
        GuessCommon ![10, 90, 0, 0] = some guess ∧ Exam.Check key guess = 9) ∧
      (∀ perm, ∃ key guess, RandomExam perm ![10, 90, 0, 0] = some key ∧
        GuessCommon ![10, 90, 0, 0] = some guess ∧ Exam.Check key guess ≤ 11) ∧
      (∀ perm, ∃ key guess, RandomExam perm ![25, 25, 25, 25] = some key ∧
        GuessCommon ![25, 25, 25, 25] = some guess ∧ Exam.Check key guess = 25) := by
  have hv : Distribution.IsValid ![10, 90, 0, 0] := by decide
  have hv2 : Distribution.IsValid ![25, 25, 25, 25] := by decide
  have hr : Rank ![10, 90, 0, 0] 0 = 1 := by decide
  have hguess : GuessCommon ![10, 90, 0, 0] = some (Function.update (fun _ => 0) 0 1) := by
    rw [GuessCommon_eq, hr]
  refine ⟨hv, by rw [hr]; decide, ?_, ?_, ?_⟩
  · refine ⟨_, _, RandomExam_of_isValid _ _ hv, Distribution_scattered _ _ hv, hguess, ?_⟩
    rw [Check_eq_card]
    rfl
  · intro perm
    exact ⟨_, _, RandomExam_of_isValid perm _ hv, hguess,
      GuessCommon_grade_le _ (Distribution_scattered perm _ hv)⟩
  · intro perm
    obtain ⟨h1, h2⟩ := GuessCommon_grade_uniform _ (Distribution_scattered perm _ hv2)
    exact ⟨_, _, RandomExam_of_isValid perm _ hv2, h1, h2⟩

end Simulator
